import Mathlib

/-!
Verification of the kstate client-side state-synchronization engine.

Shallow embedding of the core subsystems: the path-indexed subscriber bus
(`src/core/subscribers.ts`), the observation proxy's segment recording
(`src/core/proxy.ts`), the TTL/LRU cache (`src/core/cache.ts`), the collection
store (`createSetStore`), the single-value store (`src/stores/createStore.ts`),
the remote-adapter envelope (`src/sync/api.ts`), the queued remote adapter
(`src/adapters/queuedApi.ts`) and the push adapter's upsert mode
(`src/adapters/sse.ts`).
-/

namespace KState

/-! ## Path segments and the subscriber bus (`src/core/subscribers.ts`) -/

/-- A path segment is a string or a number (JS `string | number`).  JS numbers
are modelled as rationals, which covers every value the proxy ever records. -/
inductive Seg where
  | str (s : String)
  | num (q : ℚ)
deriving DecidableEq, Repr

/-- A path into the state tree. -/
abbrev Path := List Seg

/-- The per-segment comparison loop of `pathMatches` (subscribers.ts:44-49):
walks the first `min` length of both paths and fails on the first strict
inequality.  The empty cases fold in the two root short-circuits of lines
40-42, which return `true` exactly when either path has run out. -/
def agreeOnMin : Path → Path → Bool
  | [], _ => true
  | _, [] => true
  | a :: as, b :: bs => if a = b then agreeOnMin as bs else false

/-- `pathMatches` (subscribers.ts:38-52): subscribed root matches everything,
changed root matches everything, otherwise the paths match when they agree on
their common prefix. -/
def pathMatches (subscribed changed : Path) : Bool :=
  if subscribed.isEmpty then true
  else if changed.isEmpty then true
  else agreeOnMin subscribed changed

/-- `shouldNotify` (subscribers.ts:29-36): a subscription is notified when any
changed path matches its subscribed path. -/
def shouldNotify (subscribedPath : Path) (changedPaths : List Path) : Bool :=
  changedPaths.any (fun c => pathMatches subscribedPath c)

/-- `notify` (subscribers.ts:22-27): iterate the subscription set once, in
registration order, and invoke the listener of every subscription whose path
matches.  Subscriptions are identified by their registration index; the result
lists the indices whose listeners were invoked, in invocation order. -/
def notifyInvoked (subPaths : List Path) (changedPaths : List Path) : List Nat :=
  (List.range subPaths.length).filter
    (fun i => shouldNotify (subPaths.getD i []) changedPaths)

/-- A listener is modelled by what happens when it is invoked: `none` for a
normal return, `some e` for a thrown exception `e`. -/
abbrev ListenerBehavior := Option String

/-- The `notify` loop (subscribers.ts:24-26) when listeners may throw.  The
call `subscription.listener()` stands bare in the loop body, with no
try/catch, so a thrown exception aborts the loop: the result is the list of
indices whose listeners ran before (and including) the throw, paired with the
exception that escaped `notify`, if any. -/
def notifyRunFrom : Nat → List (Path × ListenerBehavior) → List Path →
    List Nat × Option String
  | _, [], _ => ([], none)
  | i, (p, beh) :: rest, changed =>
    if shouldNotify p changed then
      match beh with
      | some e => ([i], some e)
      | none =>
        let r := notifyRunFrom (i + 1) rest changed
        (i :: r.1, r.2)
    else notifyRunFrom (i + 1) rest changed

/-- The `notify` loop over the full subscription list, with throwing
listeners. -/
def notifyRun (subs : List (Path × ListenerBehavior)) (changed : List Path) :
    List Nat × Option String :=
  notifyRunFrom 0 subs changed

/-! ## JS `Map` model

A JS `Map` is an insertion-ordered association list with unique keys:
`set` on an existing key updates the value in place (keeping the key's
position), `set` on a fresh key appends, `delete` removes the entry. -/

/-- Lookup (`Map.get`): value of the first entry with the given key. -/
def jmFind? {κ α : Type} [DecidableEq κ] (m : List (κ × α)) (k : κ) : Option α :=
  (m.find? (fun e => e.1 = k)).map Prod.snd

/-- Membership (`Map.has`). -/
def jmHas {κ α : Type} [DecidableEq κ] (m : List (κ × α)) (k : κ) : Bool :=
  (jmFind? m k).isSome

/-- `Map.set`: update in place when the key is present, append otherwise. -/
def jmSet {κ α : Type} [DecidableEq κ] (m : List (κ × α)) (k : κ) (v : α) :
    List (κ × α) :=
  if jmHas m k then m.map (fun e => if e.1 = k then (k, v) else e)
  else m ++ [(k, v)]

/-- `Map.delete`: remove every entry with the given key (at most one exists in
any map built through `jmSet`). -/
def jmErase {κ α : Type} [DecidableEq κ] (m : List (κ × α)) (k : κ) :
    List (κ × α) :=
  m.filter (fun e => ¬ e.1 = k)

/-- `new Map(pairs)`: fold `set` over the pair list. -/
def jmOfList {κ α : Type} [DecidableEq κ] (pairs : List (κ × α)) : List (κ × α) :=
  pairs.foldl (fun m e => jmSet m e.1 e.2) []

/-! ## Records

An entity record `{ id, ...fields }`.  Incoming ids may be strings or numbers
(`Id normalization`, spec §4.7); field values are modelled as integers, which
is enough for every claim about record contents. -/

/-- A record id as it arrives from an adapter: JS `string | number`. -/
inductive IdVal where
  | str (s : String)
  | num (n : ℤ)
deriving DecidableEq, Repr

/-- `String(id)`: the string form of an id. -/
def IdVal.key : IdVal → String
  | .str s => s
  | .num n => toString n

/-- An entity record: a distinguished `id` plus the remaining own fields in
insertion order. -/
structure Rec where
  id : IdVal
  fields : List (String × ℤ)
deriving DecidableEq, Repr

/-- `typeof i.id === 'string' ? i : { ...i, id: String(i.id) }`: the id
normalization applied by `createSetStore` on every record it stores from an
adapter or from persisted data. -/
def normalizeRec (r : Rec) : Rec :=
  match r.id with
  | .str _ => r
  | .num n => { r with id := .str (toString n) }

/-- Object spread `{ ...old, ...new }` on the non-id fields: old keys keep
their position with values overridden by `new` where present; keys appearing
only in `new` are appended in `new`'s order. -/
def spreadMerge (old new : List (String × ℤ)) : List (String × ℤ) :=
  old.map (fun e => (e.1, (jmFind? new e.1).getD e.2)) ++
    new.filter (fun e => ¬ jmHas old e.1)

/-- `{ ...map.get(i.id), ...i }` in the sse upsert branch: merging an incoming
record over the current entry (or over `undefined` when the id is new). -/
def recMerge (old : Option Rec) (new : Rec) : Rec :=
  match old with
  | none => new
  | some o => { id := new.id, fields := spreadMerge o.fields new.fields }

/-! ## Push adapter, upsert mode (`src/adapters/sse.ts:34-38`) -/

/-- The `data.forEach(i => map.set(i.id, { ...map.get(i.id), ...i }))` fold. -/
def sseUpsertFold (m : List (IdVal × Rec)) (data : List Rec) :
    List (IdVal × Rec) :=
  data.foldl (fun m i => jmSet m i.id (recMerge (jmFind? m i.id) i)) m

/-- The upsert branch of the sse message handler: build a map keyed by raw id
from the current items, merge each incoming item over the entry with its id,
and read the new item list off the map's values. -/
def sseUpsert (items data : List Rec) : List Rec :=
  (sseUpsertFold (jmOfList (items.map (fun i => (i.id, i)))) data).map Prod.snd

/-! ## Cache (`src/core/cache.ts`)

The process-wide cache is a JS `Map` from string keys to `{ data, timestamp }`
entries; `Map` iteration order makes the front of the list the least recently
used entry.  Timestamps are integers (`Date.now()`). -/

/-- One stored cache entry: payload and the `Date.now()` at `setCache` time.
The payload type is a parameter: the stores cache both single records and
record lists. -/
structure CacheEntry (α : Type) where
  data : α
  timestamp : ℤ
deriving DecidableEq, Repr

/-- The cache: entries in LRU order (least recently used first). -/
abbrev CacheState (α : Type) := List (String × CacheEntry α)

/-- `MAX_SIZE` (cache.ts): the fixed capacity bound. -/
def cacheMaxSize : Nat := 100

/-- `getCached(key, ttl)` at time `now` (cache.ts:167-174): absent → `null`;
age `≥ ttl` → evict and return `null`; otherwise move the entry to the
most-recently-used end and return the data with `stale = age > ttl / 2`.
JS divides `ttl` by 2 in floating point; over integer ages this makes
`age > ttl / 2` the same as `2 * age > ttl`, which is how it is written
here.  Returns the result paired with the updated cache. -/
def getCached {α : Type} (key : String) (ttl : ℤ) (now : ℤ)
    (cache : CacheState α) : Option (α × Bool) × CacheState α :=
  match jmFind? cache key with
  | none => (none, cache)
  | some entry =>
    let age := now - entry.timestamp
    if age ≥ ttl then (none, jmErase cache key)
    else (some (entry.data, decide (2 * age > ttl)),
          jmErase cache key ++ [(key, entry)])

/-- `setCache(key, data)` at time `now` (cache.ts:176-180): delete any
existing entry, evict the least recently used entry when at capacity, and
append the fresh entry at the most-recently-used end. -/
def setCache {α : Type} (key : String) (data : α) (now : ℤ)
    (cache : CacheState α) : CacheState α :=
  let c := jmErase cache key
  let c := if c.length ≥ cacheMaxSize then c.drop 1 else c
  c ++ [(key, ⟨data, now⟩)]

/-- `clearCache(key)` (cache.ts:182). -/
def clearCache {α : Type} (key : String) (cache : CacheState α) : CacheState α :=
  jmErase cache key

/-- `clearCachePrefix(prefix)` (cache.ts:184-187): drop every entry whose key
starts with the prefix; a falsy (empty) prefix clears nothing. -/
def clearCachePrefix {α : Type} (prefix' : String) (cache : CacheState α) :
    CacheState α :=
  if prefix'.isEmpty then cache
  else cache.filter (fun e => ¬ prefix'.isPrefixOf e.1)

/-! ## Collection store (`createSetStore`, src/unnamed/part_013)

The observable collection state: the `id → record` map (a JS `Map` in
insertion order) and the insertion-ordered id list. -/

structure SetState where
  items : List (String × Rec)
  ids : List String
deriving DecidableEq, Repr

/-- The collection-store consistency invariant (spec §3.2): the id list has no
duplicates, the map's keys are exactly the listed ids, and the record stored
under each listed id carries that id, in string form, in its `id` field.
`ids.length == items.size` and `items.get(id).id == id` follow. -/
def SetInv (s : SetState) : Prop :=
  s.ids.Nodup ∧ (s.items.map Prod.fst).Perm s.ids ∧
    ∀ id ∈ s.ids, (jmFind? s.items id).map Rec.id = some (.str id)

instance (s : SetState) : Decidable (SetInv s) := by
  unfold SetInv; infer_instance

/-- `setItems(arr)` (part_013:22-25): rebuild the map with stringified keys and
normalized records, and the id list with stringified ids. -/
def setItems (arr : List Rec) : SetState :=
  { items := jmOfList (arr.map (fun i => (i.id.key, normalizeRec i)))
    ids := arr.map (fun i => i.id.key) }

/-- Store construction (part_013:13-15): the initial state is built from the
persisted records (`ops.persist?.load() ?? []`) exactly as `setItems` builds
it. -/
def initState (persisted : List Rec) : SetState := setItems persisted

/-- `toArray()` (part_013:27): the ordered record list
`ids.map(id => items.get(id)!)`.  The non-null assertion is modelled by a
default record for an id missing from the map (unreachable in consistent
states). -/
def toArray (s : SetState) : List Rec :=
  s.ids.map (fun id => (jmFind? s.items id).getD ⟨.str id, []⟩)

/-- The adapter outcome of one asynchronous call: the value it resolves with,
or the error it rejects with. -/
abbrev AdapterResult (α : Type) := Except String α

/-- What one store operation produced, beyond its final state: the value the
caller's promise settles with, the paths passed to `subscribers.notify` (in
call order, flattened), and whether `ops.persist.save` ran. -/
structure OpOut (α : Type) where
  state : SetState
  result : Except String α
  notified : List Path
  persistCalled : Bool
deriving Repr

/-- `patch(data)` (part_013:92-109) as a function of the pre-state, the patch
payload and the adapter outcome.  Absent id → synchronous
`Item not found` rejection with no state change.  Otherwise: optimistic merge
`{ ...prev, ...data, id }` published with fine-grained paths (one `[id, field]`
path per changed non-id key when more than one key changed, else `[id]`);
on adapter success the returned record (its id coerced to the string id when
not already a string) replaces the optimistic one and `[id]` is notified
again; on adapter failure the captured `prev` is restored, `[id]` is notified,
and the error is re-thrown. -/
def setStorePatch (s : SetState) (data : Rec)
    (adapter : AdapterResult (Option Rec)) : OpOut Rec :=
  let id := data.id.key
  match jmFind? s.items id with
  | none => { state := s, result := .error ("Item " ++ id ++ " not found")
              notified := [], persistCalled := false }
  | some prev =>
    let optimistic : Rec := { id := .str id, fields := spreadMerge prev.fields data.fields }
    let items₁ := jmSet s.items id optimistic
    let changedKeys := data.fields.map Prod.fst
    let paths : List Path :=
      if 1 + changedKeys.length > 1 then
        (changedKeys.filter (fun k => ¬ k = "id")).map (fun k => [.str id, .str k])
      else [[.str id]]
    match adapter with
    | .ok result =>
      -- `if (result) { items.set(id, ...); notify([[id]]) }`: a falsy adapter
      -- return keeps the optimistic record.
      let items₂ :=
        match result with
        | none => items₁
        | some r => jmSet items₁ id
            (match r.id with
             | .str _ => r
             | .num _ => { r with id := .str id })
      { state := { items := items₂, ids := s.ids }
        result := .ok ((jmFind? items₂ id).getD optimistic)
        notified := paths ++ (if result.isSome then [[.str id]] else [])
        persistCalled := true }
    | .error e =>
      { state := { items := jmSet items₁ id prev, ids := s.ids }
        result := .error e
        notified := paths ++ [[.str id]]
        persistCalled := false }

/-- `ids.indexOf(id)`: `-1` when absent. -/
def jsIndexOf (l : List String) (x : String) : ℤ :=
  match l.findIdx? (fun y => y = x) with
  | some i => (i : ℤ)
  | none => -1

/-- `ids.splice(start, 0, v)`: insert at `start`, with JS's clamping of a
negative or overlong start index. -/
def jsSpliceInsert (l : List String) (start : ℤ) (v : String) : List String :=
  let s : ℤ := if start < 0 then max ((l.length : ℤ) + start) 0
               else min start (l.length : ℤ)
  l.insertIdx s.toNat v

/-- `delete(params)` (part_013:111-122): capture the previous record and its
list index; optimistically remove from map and list and notify `[]`; on
adapter failure reinsert the record at the captured index (when one was
captured), notify `[]` again, and re-throw. -/
def setStoreDelete (s : SetState) (paramId : IdVal)
    (adapter : AdapterResult Unit) : OpOut Unit :=
  let id := paramId.key
  let prevItem := jmFind? s.items id
  let prevIdx := jsIndexOf s.ids id
  let items₁ := jmErase s.items id
  let ids₁ := if prevIdx ≥ 0 then s.ids.eraseIdx prevIdx.toNat else s.ids
  match adapter with
  | .ok _ =>
    { state := { items := items₁, ids := ids₁ }, result := .ok ()
      notified := [[]], persistCalled := true }
  | .error e =>
    let rolled : SetState :=
      match prevItem with
      | some p => { items := jmSet items₁ id p, ids := jsSpliceInsert ids₁ prevIdx id }
      | none => { items := items₁, ids := ids₁ }
    { state := rolled, result := .error e
      notified := [[], []], persistCalled := false }

/-- `create(data)` (part_013:78-90): append the adapter's record (normalized)
to the map and push its id onto the list, unconditionally. -/
def setStoreCreate (s : SetState) (adapter : AdapterResult Rec) : OpOut Rec :=
  match adapter with
  | .error e => { state := s, result := .error e, notified := [], persistCalled := false }
  | .ok item =>
    let id := item.id.key
    let normalized := normalizeRec item
    { state := { items := jmSet s.items id normalized, ids := s.ids ++ [id] }
      result := .ok normalized
      notified := [[]]
      persistCalled := true }

/-- `get(params)` (part_013:39-57), with the cache consult made explicit: on a
cache hit (no `_force`, a ttl configured, and an unexpired entry) the cached
list replaces the state; on a miss the adapter's list replaces the state (or
the error propagates leaving the state unchanged). -/
def setStoreGet (s : SetState) (force : Bool) (hasTtl : Bool)
    (cached : Option (List Rec × Bool)) (adapter : AdapterResult (List Rec)) :
    OpOut (List Rec) :=
  match (if force || !hasTtl then none else cached.map Prod.fst) with
  | some data =>
    let s' := setItems data
    { state := s', result := .ok (toArray s'), notified := [[]], persistCalled := false }
  | none =>
    match adapter with
    | .error e => { state := s, result := .error e, notified := [], persistCalled := false }
    | .ok result =>
      let s' := setItems result
      { state := s', result := .ok (toArray s'), notified := [[]], persistCalled := true }

/-- `getOne(params)` (part_013:59-76): on a cache hit (no `_force`, a ttl
configured, and an unexpired entry for the item key) return the cached record
and do nothing else; on a miss, fetch, normalize, append the id when new,
store the record, and notify `[[id]]`.  `getOne` never calls
`ops.persist.save`. -/
def setStoreGetOne (s : SetState) (force : Bool) (hasTtl : Bool)
    (cached : Option (Rec × Bool)) (adapter : AdapterResult Rec) : OpOut Rec :=
  match (if force || !hasTtl then none else cached.map Prod.fst) with
  | some c => { state := s, result := .ok c, notified := [], persistCalled := false }
  | none =>
    match adapter with
    | .error e => { state := s, result := .error e, notified := [], persistCalled := false }
    | .ok item =>
      let id := item.id.key
      let normalized := normalizeRec item
      { state := { items := jmSet s.items id normalized
                   ids := if jmHas s.items id then s.ids else s.ids ++ [id] }
        result := .ok normalized
        notified := [[.str id]]
        persistCalled := false }

/-- `upsert(item)` (part_013:124): push the stringified id when new and store
the record verbatim (no id normalization on this path). -/
def setStoreUpsert (s : SetState) (item : Rec) : OpOut Unit :=
  let id := item.id.key
  { state := { items := jmSet s.items id item
               ids := if jmHas s.items id then s.ids else s.ids ++ [id] }
    result := .ok ()
    notified := [[.str id]]
    persistCalled := false }

/-- `clear()` (part_013:125): drop everything. -/
def setStoreClear (_s : SetState) : OpOut Unit :=
  { state := { items := [], ids := [] }, result := .ok ()
    notified := [[]], persistCalled := false }

/-! ## Single-value store (`src/stores/createStore.ts`) -/

/-- What one single-value store operation produced: the final `data`, the
value the caller's promise settles with, and the paths notified. -/
structure SvOut (α : Type) where
  data : Option Rec
  result : Except String α
  notified : List Path
deriving Repr

/-- `update(newData)` (createStore.ts:79-100): capture `previousData`,
optimistically replace, notify `[]`; on success store the adapter's returned
record and notify `[]`; on failure restore `previousData`, notify `[]`, and
re-throw. -/
def storeUpdate (data : Option Rec) (_newData : Rec)
    (adapter : AdapterResult Rec) : SvOut Rec :=
  match adapter with
  | .ok r => { data := some r, result := .ok r, notified := [[], []] }
  | .error e => { data := data, result := .error e, notified := [[], []] }

/-- `patch(partialData)` (createStore.ts:102-124): `No data to patch` when the
store is empty; otherwise capture `previousData`, optimistically merge
`{ ...data, ...partialData }`, notify `[]`; on success store the returned
record and notify `[]`; on failure restore `previousData`, notify `[]`, and
re-throw. -/
def storePatch (data : Option Rec) (partialData : Rec)
    (adapter : AdapterResult Rec) : SvOut Rec :=
  match data with
  | none => { data := none, result := .error "No data to patch", notified := [] }
  | some d =>
    let _optimistic : Rec :=
      { id := partialData.id, fields := spreadMerge d.fields partialData.fields }
    match adapter with
    | .ok r => { data := some r, result := .ok r, notified := [[], []] }
    | .error e => { data := some d, result := .error e, notified := [[], []] }

/-- `delete(params)` (createStore.ts:126-144): capture `previousData`,
optimistically null out, notify `[]`; on failure restore and notify `[]`
again (the success branch does not notify). -/
def storeDelete (data : Option Rec) (adapter : AdapterResult Unit) : SvOut Unit :=
  match adapter with
  | .ok _ => { data := none, result := .ok (), notified := [[]] }
  | .error e => { data := data, result := .error e, notified := [[], []] }

/-- The observable `data` mid-flight, after the optimistic apply and before
the adapter settles (createStore.ts:83-85 / 107-109 / 130-132). -/
def storeOptimistic : (op : String) → Option Rec → Rec → Option Rec
  | "update", _, newData => some newData
  | "patch", some d, partialData =>
      some { id := partialData.id, fields := spreadMerge d.fields partialData.fields }
  | "delete", _, _ => none
  | _, data, _ => data

/-! ## Remote adapter envelope (`src/sync/api.ts`) -/

/-- A JSON value. -/
inductive J where
  | null
  | bool (b : Bool)
  | num (q : ℚ)
  | str (s : String)
  | arr (xs : List J)
  | obj (fields : List (String × J))

/-- Request body construction (api.ts:79-84): with a (truthy) `requestKey`,
wrap the payload as `{ [requestKey]: data }`; otherwise send the payload
itself. -/
def buildRequestBody (requestKey : Option String) (body : J) : J :=
  match requestKey with
  | some k => if k.isEmpty then body else .obj [(k, body)]
  | none => body

/-- Response unwrap (api.ts:136-143): when a (truthy) `dataKey` is configured
and present among the top-level keys of the JSON body, the value at that key
is the data and every sibling key/value pair is captured as response metadata;
otherwise the whole body is the data and no extra metadata is captured. -/
def extractData (dataKey : Option String) (fields : List (String × J)) :
    J × List (String × J) :=
  match dataKey with
  | some k =>
    if ¬ k.isEmpty ∧ jmHas fields k then
      ((jmFind? fields k).getD .null, fields.filter (fun e => ¬ e.1 = k))
    else (.obj fields, [])
  | none => (.obj fields, [])

/-! ## Queued remote adapter (`src/adapters/queuedApi.ts`)

`enqueue` pushes a wrapped task (whose try/catch confines a rejection to that
task's own promise) onto one global FIFO and `processQueue` shifts and awaits
each task in turn, its own try/catch letting the loop continue past a
rejection.  The embedding replays this loop over the list of submitted tasks
in submission order: each task is started, then awaited to settlement, before
the next is shifted. -/

deriving instance DecidableEq for Except

/-- A submitted task: its identity and the outcome its transport call settles
with. -/
structure QTask where
  id : Nat
  outcome : AdapterResult ℤ
deriving DecidableEq, Repr

/-- An observable event of the queue: a task's transport call starting, or the
task's promise settling (with its own outcome, thanks to the `enqueue`
wrapper's try/catch). -/
inductive QEvent where
  | taskStart (id : Nat)
  | taskSettle (id : Nat) (outcome : AdapterResult ℤ)
deriving DecidableEq, Repr

/-- The `while (queue.length > 0) { const task = queue.shift()!; try { await
task() } catch { } }` loop (queuedApi.ts:12-15) over the submitted tasks. -/
def runQueue : List QTask → List QEvent
  | [] => []
  | t :: ts => .taskStart t.id :: .taskSettle t.id t.outcome :: runQueue ts

/-! ## Observation proxy segment recording (`src/core/proxy.ts`) -/

/-- The characters stripped by JS's string-to-number conversion: the
`StrWhiteSpaceChar` set, i.e. WhiteSpace (TAB, VT, FF, SP, NBSP, ZWNBSP and
the Unicode Zs category: OGHAM SPACE MARK, EN QUAD … HAIR SPACE, NARROW
NO-BREAK SPACE, MEDIUM MATHEMATICAL SPACE, IDEOGRAPHIC SPACE) together with
the LineTerminators (LF, CR, LS, PS). -/
def jsWhitespaceChars : List Char :=
  [' ', '\t', '\n', '\r', '\x0b', '\x0c',
   '\u00A0', '\uFEFF', '\u1680',
   '\u2000', '\u2001', '\u2002', '\u2003', '\u2004', '\u2005', '\u2006',
   '\u2007', '\u2008', '\u2009', '\u200A',
   '\u2028', '\u2029', '\u202F', '\u205F', '\u3000']

/-- Whether a character is JS string-to-number whitespace. -/
def isJsWhitespace (c : Char) : Bool :=
  c ∈ jsWhitespaceChars

/-- Strip leading and trailing JS whitespace. -/
def trimJs (cs : List Char) : List Char :=
  ((cs.dropWhile isJsWhitespace).reverse.dropWhile isJsWhitespace).reverse

/-- Numeric value of a decimal digit character. -/
def digitVal (c : Char) : ℕ := c.toNat - 48

/-- Value of a string of decimal digits. -/
def decVal (cs : List Char) : ℕ := cs.foldl (fun a c => 10 * a + digitVal c) 0

/-- Value of a string of hexadecimal digits. -/
def hexVal (cs : List Char) : ℕ :=
  cs.foldl (fun a c =>
    16 * a + (if c.isDigit then digitVal c else (c.toLower.toNat - 97) + 10)) 0

/-- The exponent part of a JS numeric literal, after the `e`: an optional
sign and a nonempty digit run reaching the end of the string. -/
def parseExpPart (r : List Char) : Option ℤ :=
  let signed : ℤ × List Char :=
    match r with
    | '+' :: t => (1, t)
    | '-' :: t => (-1, t)
    | t => (1, t)
  if signed.2.isEmpty ∨ ¬ signed.2.all Char.isDigit then none
  else some (signed.1 * decVal signed.2)

/-- The exact mathematical value of the numeric literal accepted by the
host's `Number(string)` conversion, on the digit-initial strings that
`isNumeric` consults it for (proxy.ts:7 short-circuits on a non-digit first
character before reaching `Number`, so no sign or `Infinity` form can occur):
after trimming, a decimal literal `digits [. digits] [e[±]digits]`, or a
`0x`/`0o`/`0b` radix literal.  `none` models `NaN`; rounding never turns a
parsed literal into `NaN`, so this option's shape — all `isNumeric` looks
at — agrees with `Number` on every string.  The value `Number` produces is
this exact value rounded to binary64, which `roundF64` below performs. -/
def jsNumber? (s : String) : Option ℚ :=
  let cs := trimJs s.toList
  let intPart := cs.takeWhile Char.isDigit
  let rest := cs.dropWhile Char.isDigit
  if intPart.isEmpty then none
  else
    match rest with
    | [] => some (decVal intPart : ℚ)
    | '.' :: r =>
      let frac := r.takeWhile Char.isDigit
      let r2 := r.dropWhile Char.isDigit
      let base : ℚ := (decVal intPart : ℚ) + (decVal frac : ℚ) / ((10 : ℚ) ^ frac.length)
      match r2 with
      | [] => some base
      | 'e' :: r3 => (parseExpPart r3).map (fun e => base * (10 : ℚ) ^ e)
      | 'E' :: r3 => (parseExpPart r3).map (fun e => base * (10 : ℚ) ^ e)
      | _ => none
    | 'e' :: r3 => (parseExpPart r3).map (fun e => (decVal intPart : ℚ) * (10 : ℚ) ^ e)
    | 'E' :: r3 => (parseExpPart r3).map (fun e => (decVal intPart : ℚ) * (10 : ℚ) ^ e)
    | c :: r =>
      if intPart = ['0'] ∧ (c = 'x' ∨ c = 'X') then
        if ¬ r.isEmpty ∧ r.all (fun d => d.isDigit ∨ ('a' ≤ d.toLower ∧ d.toLower ≤ 'f')) then
          some (hexVal r : ℚ)
        else none
      else if intPart = ['0'] ∧ (c = 'o' ∨ c = 'O') then
        if ¬ r.isEmpty ∧ r.all (fun d => '0' ≤ d ∧ d ≤ '7') then
          some (r.foldl (fun a d => 8 * a + digitVal d) 0 : ℚ)
        else none
      else if intPart = ['0'] ∧ (c = 'b' ∨ c = 'B') then
        if ¬ r.isEmpty ∧ r.all (fun d => d = '0' ∨ d = '1') then
          some (r.foldl (fun a d => 2 * a + digitVal d) 0 : ℚ)
        else none
      else none

/-- Round half to even: the rounding of the IEEE-754 default mode applied to
a scaled significand. -/
def roundTiesEven (m : ℚ) : ℤ :=
  let fl := ⌊m⌋
  let frac := m - fl
  if frac < 1 / 2 then fl
  else if 1 / 2 < frac then fl + 1
  else if 2 ∣ fl then fl else fl + 1

/-- `⌊log₂ a⌋` of a positive rational, by fuel-bounded halving/doubling; fuel
`1200` covers every magnitude from the smallest subnormal double (`2^-1074`)
past the largest finite one, so it is exact on the whole binary64 range. -/
def ratLog2Fuel : ℕ → ℚ → ℤ
  | 0, _ => 0
  | f + 1, a =>
    if a < 1 then ratLog2Fuel f (2 * a) - 1
    else if 2 ≤ a then ratLog2Fuel f (a / 2) + 1
    else 0

/-- `⌊log₂ a⌋` for a positive rational in the binary64 range. -/
def ratLog2 (a : ℚ) : ℤ := ratLog2Fuel 1200 a

/-- Rounding of an exact rational to the IEEE-754 binary64 value the host's
`Number` produces: scale to a 53-bit significand (clamped at the subnormal
exponent `-1074`), round half to even, and scale back.  Magnitudes at or
above `2^1024`, which the host turns into `Infinity`, are outside the model
(no claim evaluates the recorded value there); on every finite double this is
the exact rounding, and on values already representable — in particular every
integer below `2^53` — it is the identity. -/
def roundF64 (q : ℚ) : ℚ :=
  if q = 0 then 0
  else
    let a := |q|
    let scale : ℤ := max (ratLog2 a - 52) (-1074)
    let n := roundTiesEven (a / (2 : ℚ) ^ scale)
    if q < 0 then -((n : ℚ) * (2 : ℚ) ^ scale) else (n : ℚ) * (2 : ℚ) ^ scale

/-- The value of `Number(s)` on the digit-initial strings `isNumeric`
consults it for: the exact literal value rounded to binary64. -/
def jsNumberVal? (s : String) : Option ℚ :=
  (jsNumber? s).map roundF64

/-- `isNumeric` (proxy.ts:7): nonempty, first character a decimal digit
(`charCodeAt(0)` between 48 and 57), and `Number(s) == s`.  The loose `==`
coerces the string operand with `Number` as well, so the final conjunct holds
exactly when `Number(s)` is not `NaN`. -/
def isNumeric (s : String) : Bool :=
  match s.toList with
  | [] => false
  | c :: _ => c.isDigit && (jsNumber? s).isSome

/-- The segment recorded for a string property access
(`proxy.ts:86`): `isNumeric(prop) ? Number(prop) : prop`, with `Number`'s
value modelled as the exact literal value rounded to binary64. -/
def recordSegment (prop : String) : Seg :=
  if isNumeric prop then .num ((jsNumberVal? prop).getD 0) else .str prop

/-- The predicate the specification states for numeric coercion: a string of
decimal digits with no leading zero (other than `"0"` itself). -/
def specNumericPred (s : String) : Bool :=
  decide (s.toList ≠ []) && s.toList.all Char.isDigit &&
    (s = "0" || decide (s.toList.head? ≠ some '0'))

/-! ## Lemmas about the JS `Map` model -/

theorem jmHas_iff {κ α : Type} [DecidableEq κ] (m : List (κ × α)) (k : κ) :
    jmHas m k = true ↔ k ∈ m.map Prod.fst := by
  simp [jmHas, jmFind?, List.find?_isSome, List.mem_map]

theorem jmFind?_eq_none {κ α : Type} [DecidableEq κ] (m : List (κ × α)) (k : κ)
    (h : k ∉ m.map Prod.fst) : jmFind? m k = none := by
  simp only [jmFind?, Option.map_eq_none', List.find?_eq_none]
  intro e he hk
  exact h (List.mem_map.mpr ⟨e, he, by simpa using hk⟩)

theorem jmSet_of_not_has {κ α : Type} [DecidableEq κ] (m : List (κ × α)) (k : κ)
    (v : α) (h : jmHas m k = false) : jmSet m k v = m ++ [(k, v)] := by
  simp [jmSet, h]

/-- The in-place update performed by `jmSet` on a present key does not change
the key sequence. -/
theorem jmSet_keys {κ α : Type} [DecidableEq κ] (m : List (κ × α)) (k : κ) (v : α) :
    (jmSet m k v).map Prod.fst =
      if jmHas m k then m.map Prod.fst else m.map Prod.fst ++ [k] := by
  unfold jmSet
  split
  · simp only [List.map_map]
    apply List.map_congr_left
    intro e _
    by_cases he : e.1 = k <;> simp [he]
  · simp

theorem jmUpd_find?_self {κ α : Type} [DecidableEq κ] (m : List (κ × α)) (k : κ) (v : α) :
    jmFind? (m.map (fun e => if e.1 = k then (k, v) else e)) k =
      (jmFind? m k).map (fun _ => v) := by
  induction m with
  | nil => simp [jmFind?]
  | cons e t ih =>
    by_cases he : e.1 = k
    · simp [jmFind?, he]
    · simp only [List.map_cons, if_neg he]
      rw [jmFind?, List.find?_cons_of_neg _ (by simpa using he),
        jmFind?, List.find?_cons_of_neg _ (by simpa using he)]
      exact ih

theorem jmSet_find?_self {κ α : Type} [DecidableEq κ] (m : List (κ × α)) (k : κ) (v : α) :
    jmFind? (jmSet m k v) k = some v := by
  unfold jmSet
  split
  · rename_i h
    rw [jmUpd_find?_self]
    unfold jmHas at h
    rcases Option.isSome_iff_exists.mp h with ⟨w, hw⟩
    simp [hw]
  · rename_i h
    have hnone : jmFind? m k = none := by
      unfold jmHas at h
      simpa [Option.isSome_iff_ne_none] using h
    rw [jmFind?, List.find?_append]
    have : List.find? (fun e => decide (e.1 = k)) m = none := by
      simpa [jmFind?, Option.map_eq_none'] using hnone
    rw [this]
    simp

theorem jmUpd_find?_ne {κ α : Type} [DecidableEq κ] (m : List (κ × α)) (k k' : κ)
    (v : α) (h : k' ≠ k) :
    List.find? (fun e => decide (e.1 = k')) (m.map (fun e => if e.1 = k then (k, v) else e)) =
      List.find? (fun e => decide (e.1 = k')) m := by
  induction m with
  | nil => simp
  | cons e t ih =>
    by_cases he : e.1 = k
    · have h2 : ¬ (e.1 = k') := by rw [he]; exact fun hh => h hh.symm
      simp only [List.map_cons, if_pos he]
      rw [List.find?_cons_of_neg _ (by simpa using fun hh => h hh.symm),
        List.find?_cons_of_neg _ (by simpa using h2)]
      exact ih
    · simp only [List.map_cons, if_neg he]
      by_cases hd : e.1 = k'
      · rw [List.find?_cons_of_pos _ (by simpa using hd),
          List.find?_cons_of_pos _ (by simpa using hd)]
      · rw [List.find?_cons_of_neg _ (by simpa using hd),
          List.find?_cons_of_neg _ (by simpa using hd)]
        exact ih

theorem jmSet_find?_ne {κ α : Type} [DecidableEq κ] (m : List (κ × α)) (k k' : κ)
    (v : α) (h : k' ≠ k) : jmFind? (jmSet m k v) k' = jmFind? m k' := by
  unfold jmSet
  split
  · rw [jmFind?, jmFind?]
    congr 1
    exact jmUpd_find?_ne m k k' v h
  · rw [jmFind?, List.find?_append]
    have : List.find? (fun e => decide (e.1 = k')) [(k, v)] = none := by
      simp only [List.find?_singleton]
      simp only [decide_eq_true_eq]
      rw [if_neg (fun hh => h hh.symm)]
    rw [this]
    simp [jmFind?]

theorem jmErase_find?_self {κ α : Type} [DecidableEq κ] (m : List (κ × α)) (k : κ) :
    jmFind? (jmErase m k) k = none := by
  unfold jmFind? jmErase
  simp only [Option.map_eq_none', List.find?_eq_none]
  intro e he
  have := List.of_mem_filter he
  simpa using this

theorem jmErase_find?_ne {κ α : Type} [DecidableEq κ] (m : List (κ × α)) (k k' : κ)
    (h : k' ≠ k) : jmFind? (jmErase m k) k' = jmFind? m k' := by
  unfold jmFind? jmErase
  congr 1
  induction m with
  | nil => simp
  | cons e t ih =>
    by_cases he : e.1 = k
    · rw [List.filter_cons_of_neg (by simpa using he),
        List.find?_cons_of_neg _ (by simp; rw [he]; exact fun hh => h hh.symm)]
      exact ih
    · rw [List.filter_cons_of_pos (by simpa using he)]
      by_cases hd : e.1 = k'
      · rw [List.find?_cons_of_pos _ (by simpa using hd),
          List.find?_cons_of_pos _ (by simpa using hd)]
      · rw [List.find?_cons_of_neg _ (by simpa using hd),
          List.find?_cons_of_neg _ (by simpa using hd)]
        exact ih

theorem jmErase_keys {κ α : Type} [DecidableEq κ] (m : List (κ × α)) (k : κ) :
    (jmErase m k).map Prod.fst = (m.map Prod.fst).filter (fun x => ¬ x = k) := by
  unfold jmErase
  rw [List.filter_map]
  rfl

theorem jmErase_of_not_mem {κ α : Type} [DecidableEq κ] (m : List (κ × α)) (k : κ)
    (h : k ∉ m.map Prod.fst) : jmErase m k = m := by
  have hne : ∀ e ∈ m, e.1 ≠ k := by
    intro e he hk
    exact h (List.mem_map.mpr ⟨e, he, hk⟩)
  unfold jmErase
  exact List.filter_eq_self.mpr (fun e he => by simpa using hne e he)

/-- Folding `jmSet` over pairs with pairwise-distinct keys just appends. -/
theorem jmOfList_append_of_nodup {κ α : Type} [DecidableEq κ]
    (pairs : List (κ × α)) (acc : List (κ × α))
    (h : (acc.map Prod.fst ++ pairs.map Prod.fst).Nodup) :
    pairs.foldl (fun m e => jmSet m e.1 e.2) acc = acc ++ pairs := by
  induction pairs generalizing acc with
  | nil => simp
  | cons e t ih =>
    have hnot : e.1 ∉ acc.map Prod.fst := by
      intro hmem
      have hdisj := (List.nodup_append.mp (by simpa using h)).2.2
      exact hdisj hmem (by simp)
    have hset : jmSet acc e.1 e.2 = acc ++ [(e.1, e.2)] := by
      apply jmSet_of_not_has
      cases hb : jmHas acc e.1
      · rfl
      · exact absurd ((jmHas_iff acc e.1).mp hb) hnot
    simp only [List.foldl_cons, hset]
    rw [ih (acc ++ [(e.1, e.2)]) (by simpa [List.append_assoc] using h)]
    simp

theorem jmOfList_of_nodup {κ α : Type} [DecidableEq κ] (pairs : List (κ × α))
    (h : (pairs.map Prod.fst).Nodup) : jmOfList pairs = pairs := by
  unfold jmOfList
  simpa using jmOfList_append_of_nodup pairs [] (by simpa using h)

/-- In a pair list built by mapping key and value extractors over a base list
whose keys are pairwise distinct, lookup of an element's key finds exactly
that element's pair. -/
theorem jmFind?_map_pairs {κ α β : Type} [DecidableEq κ] (l : List β)
    (f : β → κ) (g : β → α) (a : β) (ha : a ∈ l) (h : (l.map f).Nodup) :
    jmFind? (l.map (fun x => (f x, g x))) (f a) = some (g a) := by
  induction l with
  | nil => cases ha
  | cons x t ih =>
    rcases List.mem_cons.mp ha with rfl | hat
    · simp [jmFind?]
    · by_cases hx : f x = f a
      · exfalso
        have : f a ∈ t.map f := List.mem_map_of_mem f hat
        rw [← hx] at this
        exact (List.nodup_cons.mp (by simpa using h)).1 this
      · simp only [List.map_cons, jmFind?, List.find?]
        simp only [show (decide ((f x, g x).1 = f a)) = false by simpa using hx]
        exact ih hat (List.Nodup.of_cons (by simpa using h))

/-! ## C3: cache TTL behaviour -/

/-- C3: for a cache entry for key `k` stored at time `t` with `ttl > 0`, a
read at time `now` returns `null` and evicts the entry when `now - t ≥ ttl`;
returns the stored data with `stale = true` when `ttl/2 < now - t < ttl`; and
returns it with `stale = false` when `now - t ≤ ttl/2` (the half-ttl
comparisons are written `2*(now-t)` against `ttl`, which is the same
inequality over integers).  An expired entry is never returned and is evicted
on access. -/
theorem cache_read_cases {α : Type} (cache : CacheState α) (k : String) (v : α)
    (t ttl now : ℤ) (httl : 0 < ttl) (hfind : jmFind? cache k = some ⟨v, t⟩) :
    (ttl ≤ now - t →
      (getCached k ttl now cache).1 = none ∧
      jmFind? (getCached k ttl now cache).2 k = none) ∧
    (ttl < 2 * (now - t) → now - t < ttl →
      (getCached k ttl now cache).1 = some (v, true)) ∧
    (2 * (now - t) ≤ ttl →
      (getCached k ttl now cache).1 = some (v, false)) := by
  unfold getCached
  rw [hfind]
  dsimp only
  refine ⟨?_, ?_, ?_⟩
  · intro h
    rw [if_pos (by omega : now - t ≥ ttl)]
    exact ⟨rfl, jmErase_find?_self cache k⟩
  · intro h1 h2
    rw [if_neg (by omega : ¬ now - t ≥ ttl)]
    have : decide (2 * (now - t) > ttl) = true := by
      rw [decide_eq_true_eq]; omega
    simp [this]
  · intro h
    rw [if_neg (by omega : ¬ now - t ≥ ttl)]
    have : decide (2 * (now - t) > ttl) = false := by
      rw [decide_eq_false_iff_not]; omega
    simp [this]

theorem cache_read_cases_witness :
    (getCached "k" 10 3 [("k", (⟨5, 0⟩ : CacheEntry ℤ))]).1 = some (5, false) :=
  (cache_read_cases [("k", ⟨5, 0⟩)] "k" 5 0 10 3 (by norm_num) (by rfl)).2.2
    (by norm_num)

/-! ## C10: `getOne` cache hit leaves the store untouched -/

/-- C10: when `getOne` finds an unexpired cache entry for its item cache key
(no `_force`, a ttl configured, and `getCached` returning data), it resolves
with the cached record and does nothing else: the items map and id list are
unchanged, no data subscriber is notified, and `ops.persist.save` is not
called — the merge-into-collection step runs only on a cache miss. -/
theorem getOne_cache_hit_frame (s : SetState) (cache : CacheState Rec)
    (k : String) (ttl now : ℤ) (c : Rec) (st : Bool)
    (adapter : AdapterResult Rec)
    (h : (getCached k ttl now cache).1 = some (c, st)) :
    setStoreGetOne s false true ((getCached k ttl now cache).1) adapter =
      { state := s, result := .ok c, notified := [], persistCalled := false } := by
  rw [h]
  rfl

theorem getOne_cache_hit_frame_witness :
    setStoreGetOne (initState [⟨.str "a", [("v", 1)]⟩]) false true
        ((getCached "k" 10 3 [("k", (⟨⟨.str "a", [("v", 2)]⟩, 0⟩ : CacheEntry Rec))]).1)
        (.error "offline") =
      { state := initState [⟨.str "a", [("v", 1)]⟩]
        result := .ok ⟨.str "a", [("v", 2)]⟩
        notified := [], persistCalled := false } :=
  getOne_cache_hit_frame _ _ "k" 10 3 ⟨.str "a", [("v", 2)]⟩ false _ (by decide)

/-! ## C9: request/response envelope round trip -/

/-- C9: with `requestKey = x` the sent body is `{x: v}`; with `dataKey = x`
and a response `{x: v', ...siblings}` the extracted data is `v'` and the
sibling top-level keys are captured as metadata; wrap followed by unwrap is
the identity on the payload; and the single-value store's `patch` stores and
returns exactly the record the adapter resolved with. -/
theorem envelope_roundtrip (x : String) (hx : x.isEmpty = false) (v v' : J)
    (siblings : List (String × J)) (hs : jmHas siblings x = false)
    (d p r : Rec) :
    buildRequestBody (some x) v = J.obj [(x, v)] ∧
    extractData (some x) ((x, v') :: siblings) = (v', siblings) ∧
    extractData (some x) [(x, v)] = (v, []) ∧
    (storePatch (some d) p (.ok r)).data = some r ∧
    (storePatch (some d) p (.ok r)).result = .ok r := by
  have hmem : x ∉ siblings.map Prod.fst := by
    intro hmemx
    rw [(jmHas_iff siblings x).mpr hmemx] at hs
    cases hs
  refine ⟨?_, ?_, ?_, rfl, rfl⟩
  · simp [buildRequestBody, hx]
  · unfold extractData
    dsimp only
    rw [if_pos]
    · rw [Prod.mk.injEq]
      refine ⟨?_, ?_⟩
      · simp [jmFind?]
      · rw [List.filter_cons_of_neg (by simp)]
        exact List.filter_eq_self.mpr
          (fun e he => by
            simpa using fun hk => hmem (List.mem_map.mpr ⟨e, he, hk⟩))
    · exact ⟨by simpa using hx, by simp [jmHas, jmFind?]⟩
  · unfold extractData
    dsimp only
    rw [if_pos]
    · rw [Prod.mk.injEq]
      refine ⟨?_, ?_⟩
      · simp [jmFind?]
      · simp
    · exact ⟨by simpa using hx, by simp [jmHas, jmFind?]⟩

theorem envelope_roundtrip_witness :
    buildRequestBody (some "x") (J.num 1) = J.obj [("x", J.num 1)] ∧
    extractData (some "x") [("x", J.num 2), ("page", J.num 7)] =
      (J.num 2, [("page", J.num 7)]) ∧
    extractData (some "x") [("x", J.num 1)] = (J.num 1, []) ∧
    (storePatch (some ⟨.str "a", []⟩) ⟨.str "a", [("v", 3)]⟩
        (.ok ⟨.str "a", [("v", 4)]⟩)).data = some ⟨.str "a", [("v", 4)]⟩ ∧
    (storePatch (some ⟨.str "a", []⟩) ⟨.str "a", [("v", 3)]⟩
        (.ok ⟨.str "a", [("v", 4)]⟩)).result = .ok ⟨.str "a", [("v", 4)]⟩ :=
  envelope_roundtrip "x" rfl (J.num 1) (J.num 2) [("page", J.num 7)] (by rfl)
    ⟨.str "a", []⟩ ⟨.str "a", [("v", 3)]⟩ ⟨.str "a", [("v", 4)]⟩

/-! ## C6: queued remote adapter FIFO -/

/-- C6: the queued adapter's event trace runs the submitted tasks strictly in
submission order: the trace has exactly a start and a settle event per task;
the events before task `k`'s start (position `2k`) are exactly the complete
runs of tasks `0..k-1`, so a task starts only after all previously submitted
tasks have settled; task `k` settles, immediately after starting, with its own
outcome — in particular a task that rejects settles alone and every later task
still starts and settles. -/
theorem queued_fifo (tasks : List QTask) :
    (runQueue tasks).length = 2 * tasks.length ∧
    (∀ k, (runQueue tasks).take (2 * k) = runQueue (tasks.take k)) ∧
    (∀ k, ∀ h : k < tasks.length,
      (runQueue tasks)[2 * k]? = some (.taskStart (tasks.get ⟨k, h⟩).id) ∧
      (runQueue tasks)[2 * k + 1]? =
        some (.taskSettle (tasks.get ⟨k, h⟩).id (tasks.get ⟨k, h⟩).outcome)) := by
  refine ⟨?_, ?_, ?_⟩
  · induction tasks with
    | nil => simp [runQueue]
    | cons t ts ih => simp only [runQueue, List.length_cons]; omega
  · intro k
    induction tasks generalizing k with
    | nil => simp [runQueue]
    | cons t ts ih =>
      cases k with
      | zero => simp [runQueue]
      | succ k =>
        have h2 : 2 * (k + 1) = 2 * k + 1 + 1 := by ring
        rw [h2]
        simp only [runQueue, List.take_succ_cons]
        rw [ih k]
  · intro k
    induction tasks generalizing k with
    | nil => intro h; cases h
    | cons t ts ih =>
      intro h
      cases k with
      | zero => simp [runQueue]
      | succ k =>
        have h2 : 2 * (k + 1) = 2 * k + 1 + 1 := by ring
        have h3 : 2 * (k + 1) + 1 = 2 * k + 1 + 1 + 1 := by ring
        constructor
        · rw [h2]
          simp only [runQueue, List.getElem?_cons_succ]
          exact (ih k (by simpa using Nat.lt_of_succ_lt_succ h)).1
        · rw [h3]
          simp only [runQueue, List.getElem?_cons_succ]
          exact (ih k (by simpa using Nat.lt_of_succ_lt_succ h)).2

theorem queued_fifo_witness :
    (runQueue [⟨0, .ok 0⟩, ⟨1, .error "boom"⟩, ⟨2, .ok 2⟩])[4]? =
      some (.taskStart 2) :=
  ((queued_fifo [⟨0, .ok 0⟩, ⟨1, .error "boom"⟩, ⟨2, .ok 2⟩]).2.2 2
    (by decide)).1

/-! ## C1: subscriber bus overlap rule -/

theorem agreeOnMin_iff (p q : Path) :
    agreeOnMin p q = true ↔ (p <+: q ∨ q <+: p) := by
  induction p generalizing q with
  | nil => simp [agreeOnMin, List.nil_prefix]
  | cons a as ih =>
    cases q with
    | nil => simp [agreeOnMin, List.nil_prefix]
    | cons b bs =>
      simp only [agreeOnMin]
      by_cases hab : a = b
      · subst hab
        rw [if_pos rfl, ih bs]
        constructor
        · rintro (h | h)
          · exact Or.inl (List.cons_prefix_cons.mpr ⟨rfl, h⟩)
          · exact Or.inr (List.cons_prefix_cons.mpr ⟨rfl, h⟩)
        · rintro (h | h)
          · exact Or.inl (List.cons_prefix_cons.mp h).2
          · exact Or.inr (List.cons_prefix_cons.mp h).2
      · rw [if_neg hab]
        simp only [Bool.false_eq_true, false_iff]
        rintro (h | h)
        · exact hab (List.cons_prefix_cons.mp h).1
        · exact hab ((List.cons_prefix_cons.mp h).1).symm

theorem pathMatches_eq_agreeOnMin (p q : Path) : pathMatches p q = agreeOnMin p q := by
  cases p <;> cases q <;> simp [pathMatches, agreeOnMin]

theorem pathMatches_iff (p q : Path) :
    pathMatches p q = true ↔ (p <+: q ∨ q <+: p) := by
  rw [pathMatches_eq_agreeOnMin]
  exact agreeOnMin_iff p q

/-- C1: in a `notify(changedPaths)` call over any set of registered
subscriptions, the subscription registered at index `i` has its listener
invoked if and only if some changed path `c` overlaps its subscribed path
(one is a prefix of the other, equality and the empty path included), and a
matching subscription's listener is invoked exactly once per notify call (a
non-matching one, zero times). -/
theorem notify_iff_overlap (subs : List Path) (changed : List Path)
    (i : Nat) (h : i < subs.length) :
    (i ∈ notifyInvoked subs changed ↔
      ∃ c ∈ changed, subs.get ⟨i, h⟩ <+: c ∨ c <+: subs.get ⟨i, h⟩) ∧
    (notifyInvoked subs changed).count i =
      (if i ∈ notifyInvoked subs changed then 1 else 0) := by
  have hnodup : (notifyInvoked subs changed).Nodup :=
    List.Nodup.filter _ (List.nodup_range _)
  constructor
  · unfold notifyInvoked
    rw [List.mem_filter]
    have hrange : i ∈ List.range subs.length := List.mem_range.mpr h
    have hgetD : subs.getD i [] = subs.get ⟨i, h⟩ := by
      simp [List.getD_eq_getElem?_getD, List.getElem?_eq_getElem h]
    simp only [hrange, true_and, hgetD, shouldNotify, List.any_eq_true]
    constructor
    · rintro ⟨c, hc, hm⟩
      exact ⟨c, hc, (pathMatches_iff _ c).mp hm⟩
    · rintro ⟨c, hc, hm⟩
      exact ⟨c, hc, (pathMatches_iff _ c).mpr hm⟩
  · by_cases hmem : i ∈ notifyInvoked subs changed
    · rw [if_pos hmem]
      exact List.count_eq_one_of_mem hnodup hmem
    · rw [if_neg hmem]
      exact List.count_eq_zero_of_not_mem hmem

theorem notify_iff_overlap_witness :
    ((0 ∈ notifyInvoked [[Seg.str "u1"]] [[Seg.str "u1", Seg.str "name"]]) ↔
      ∃ c ∈ [[Seg.str "u1", Seg.str "name"]],
        ([Seg.str "u1"] : Path) <+: c ∨ c <+: [Seg.str "u1"]) ∧
    (notifyInvoked [[Seg.str "u1"]] [[Seg.str "u1", Seg.str "name"]]).count 0 =
      (if 0 ∈ notifyInvoked [[Seg.str "u1"]] [[Seg.str "u1", Seg.str "name"]]
       then 1 else 0) :=
  notify_iff_overlap [[Seg.str "u1"]] [[Seg.str "u1", Seg.str "name"]] 0
    (by decide)

/-! ## C8: a throwing listener aborts the notify loop -/

/-- C8 counterexample: two root subscriptions, the first of which throws.  On
`notify([[]])` both match, yet only the first listener is invoked — the second
matching listener never runs — and the exception escapes `notify` to the
caller instead of reaching any uncaught-exception handler, refuting the claim
that a throwing listener does not prevent the remaining listeners from
running. -/
theorem notify_throw_counterexample :
    notifyRun [([], some "boom"), ([], none)] [[]] = ([0], some "boom") ∧
    shouldNotify [] [[]] = true ∧
    1 ∉ (notifyRun [([], some "boom"), ([], none)] [[]]).1 := by
  refine ⟨rfl, rfl, ?_⟩
  intro hmem
  simp [notifyRun, notifyRunFrom, shouldNotify, pathMatches] at hmem

theorem notifyRunFrom_shift (n : Nat) (subs : List (Path × ListenerBehavior))
    (changed : List Path) :
    notifyRunFrom n subs changed =
      ((notifyRunFrom 0 subs changed).1.map (fun i => i + n),
        (notifyRunFrom 0 subs changed).2) := by
  induction subs generalizing n with
  | nil => simp [notifyRunFrom]
  | cons s rest ih =>
    obtain ⟨p, beh⟩ := s
    by_cases hm : shouldNotify p changed
    · cases beh with
      | some e => simp [notifyRunFrom, hm]
      | none =>
        simp only [notifyRunFrom, if_pos hm]
        rw [ih (n + 1), ih 1]
        simp only [List.map_map, List.map_cons, Prod.mk.injEq, List.cons.injEq]
        refine ⟨⟨by omega, ?_⟩, trivial⟩
        apply List.map_congr_left
        intro a _
        simp only [Function.comp_apply]
        omega
    · simp only [notifyRunFrom, if_neg hm]
      rw [ih (n + 1), ih 1]
      simp only [List.map_map, Prod.mk.injEq]
      refine ⟨?_, trivial⟩
      apply List.map_congr_left
      intro a _
      simp only [Function.comp_apply]
      omega

/-- Whether the listener of the subscription at index `i` throws when
invoked. -/
def listenerThrowsAt (subs : List (Path × ListenerBehavior)) (i : Nat) : Bool :=
  ((subs.getD i ([], none)).2).isSome

theorem notifyInvoked_cons (p : Path) (rest : List Path) (changed : List Path) :
    notifyInvoked (p :: rest) changed =
      (if shouldNotify p changed then [0] else []) ++
        (notifyInvoked rest changed).map (fun i => i + 1) := by
  unfold notifyInvoked
  rw [List.length_cons, List.range_succ_eq_map, List.filter_cons, List.filter_map]
  have hpred : ((fun i => shouldNotify ((p :: rest).getD i []) changed) ∘ Nat.succ) =
      (fun i => shouldNotify (rest.getD i []) changed) := by
    funext a
    simp [Function.comp]
  rw [hpred]
  have hmap : List.map Nat.succ ((List.range rest.length).filter
      (fun i => shouldNotify (rest.getD i []) changed)) =
      ((List.range rest.length).filter
        (fun i => shouldNotify (rest.getD i []) changed)).map (fun i => i + 1) := by
    apply List.map_congr_left
    intro a _
    omega
  by_cases hm : shouldNotify p changed
  · simp only [List.getD_cons_zero, hm, if_true, hmap, List.singleton_append]
  · simp only [List.getD_cons_zero, hm, Bool.false_eq_true, if_false, hmap,
      List.nil_append]

/-- C8 amended: in a `notify` call where listeners may throw, the listeners
that run are exactly the matching ones in registration order up to and
including the first matching listener that throws; that first exception
escapes `notify` synchronously to the notifier (there is no try/catch in the
loop), and every matching listener registered after it is not invoked. -/
theorem notify_throw_aborts (subs : List (Path × ListenerBehavior))
    (changed : List Path) :
    (notifyRun subs changed).1 =
      (match (notifyInvoked (subs.map Prod.fst) changed).find?
          (fun i => listenerThrowsAt subs i) with
       | none => notifyInvoked (subs.map Prod.fst) changed
       | some t =>
         (notifyInvoked (subs.map Prod.fst) changed).takeWhile
           (fun i => !listenerThrowsAt subs i) ++ [t]) ∧
    (notifyRun subs changed).2 =
      ((notifyInvoked (subs.map Prod.fst) changed).find?
          (fun i => listenerThrowsAt subs i)).bind
        (fun i => (subs.getD i ([], none)).2) := by
  induction subs with
  | nil => simp [notifyRun, notifyRunFrom, notifyInvoked]
  | cons s rest ih =>
    obtain ⟨p, beh⟩ := s
    obtain ⟨ih1, ih2⟩ := ih
    have hInv : notifyInvoked (((p, beh) :: rest).map Prod.fst) changed =
        (if shouldNotify p changed then [0] else []) ++
          (notifyInvoked (rest.map Prod.fst) changed).map (fun i => i + 1) := by
      rw [List.map_cons]
      exact notifyInvoked_cons p (rest.map Prod.fst) changed
    have hfind_map : ((notifyInvoked (rest.map Prod.fst) changed).map (fun i => i + 1)).find?
        (fun i => listenerThrowsAt ((p, beh) :: rest) i) =
        ((notifyInvoked (rest.map Prod.fst) changed).find?
          (fun i => listenerThrowsAt rest i)).map (fun i => i + 1) := by
      rw [List.find?_map]
      congr 1
    have htake_map : ((notifyInvoked (rest.map Prod.fst) changed).map (fun i => i + 1)).takeWhile
        (fun i => !listenerThrowsAt ((p, beh) :: rest) i) =
        ((notifyInvoked (rest.map Prod.fst) changed).takeWhile
          (fun i => !listenerThrowsAt rest i)).map (fun i => i + 1) := by
      rw [List.takeWhile_map]
      congr 1
    by_cases hm : shouldNotify p changed
    · cases beh with
      | some e =>
        have hrun : notifyRun ((p, some e) :: rest) changed = ([0], some e) := by
          simp [notifyRun, notifyRunFrom, hm]
        have hthrow0 : listenerThrowsAt ((p, some e) :: rest) 0 = true := by
          simp [listenerThrowsAt]
        rw [hrun, hInv, if_pos hm, List.singleton_append]
        constructor
        · rw [List.find?_cons_of_pos _ hthrow0,
            List.takeWhile_cons_of_neg (by simp [hthrow0])]
          rfl
        · rw [List.find?_cons_of_pos _ hthrow0]
          simp [listenerThrowsAt]
      | none =>
        have hthrow0 : listenerThrowsAt ((p, none) :: rest) 0 = false := by
          simp [listenerThrowsAt]
        have hrun : notifyRun ((p, none) :: rest) changed =
            (0 :: (notifyRun rest changed).1.map (fun i => i + 1),
              (notifyRun rest changed).2) := by
          show notifyRunFrom 0 ((p, none) :: rest) changed = _
          rw [notifyRunFrom, if_pos hm]
          rw [notifyRunFrom_shift 1 rest changed]
          rfl
        rw [hrun, hInv, if_pos hm, List.singleton_append]
        constructor
        · rw [List.find?_cons_of_neg _ (by simp [hthrow0]), hfind_map]
          cases hf : (notifyInvoked (rest.map Prod.fst) changed).find?
              (fun i => listenerThrowsAt rest i) with
          | none =>
            simp only [hf] at ih1
            simp only [Option.map_none']
            rw [ih1]
          | some t =>
            simp only [hf] at ih1
            simp only [Option.map_some']
            rw [List.takeWhile_cons_of_pos (by simp [hthrow0]), htake_map]
            rw [ih1]
            simp
        · rw [List.find?_cons_of_neg _ (by simp [hthrow0]), hfind_map]
          cases hf : (notifyInvoked (rest.map Prod.fst) changed).find?
              (fun i => listenerThrowsAt rest i) with
          | none =>
            simp only [hf] at ih2
            rw [ih2]
            rfl
          | some t =>
            simp only [hf] at ih2
            rw [ih2]
            simp [listenerThrowsAt]
    · have hrun : notifyRun ((p, beh) :: rest) changed =
          ((notifyRun rest changed).1.map (fun i => i + 1),
            (notifyRun rest changed).2) := by
        show notifyRunFrom 0 ((p, beh) :: rest) changed = _
        rw [notifyRunFrom.eq_def]
        dsimp only
        rw [if_neg hm]
        rw [notifyRunFrom_shift 1 rest changed]
        rfl
      rw [hrun, hInv, if_neg hm, List.nil_append]
      constructor
      · rw [hfind_map]
        cases hf : (notifyInvoked (rest.map Prod.fst) changed).find?
            (fun i => listenerThrowsAt rest i) with
        | none =>
          simp only [hf] at ih1
          simp only [Option.map_none']
          rw [ih1]
        | some t =>
          simp only [hf] at ih1
          simp only [Option.map_some']
          rw [htake_map, ih1]
          simp
      · rw [hfind_map]
        cases hf : (notifyInvoked (rest.map Prod.fst) changed).find?
            (fun i => listenerThrowsAt rest i) with
        | none =>
          simp only [hf] at ih2
          rw [ih2]
          rfl
        | some t =>
          simp only [hf] at ih2
          rw [ih2]
          simp [listenerThrowsAt]

theorem notify_throw_aborts_witness :
    (notifyRun [([], none), ([], some "boom"), ([], none)] [[]]).1 = [0, 1] ∧
    (notifyRun [([], none), ([], some "boom"), ([], none)] [[]]).2 =
      some "boom" := by
  have h := notify_throw_aborts [([], none), ([], some "boom"), ([], none)] [[]]
  obtain ⟨h1, h2⟩ := h
  constructor
  · rw [h1]; rfl
  · rw [h2]; rfl

/-! ## C5: push adapter upsert mode -/

theorem find?_congr_mem {β : Type} (l : List β) (p q : β → Bool)
    (h : ∀ a ∈ l, p a = q a) : l.find? p = l.find? q := by
  induction l with
  | nil => rfl
  | cons a t ih =>
    cases hp : p a
    · rw [List.find?_cons_of_neg _ (by simp [hp]),
        List.find?_cons_of_neg _ (by simp [← h a (by simp), hp])]
      exact ih (fun b hb => h b (by simp [hb]))
    · rw [List.find?_cons_of_pos _ hp,
        List.find?_cons_of_pos _ (by simp [← h a (by simp), hp])]

theorem find?_key_self {β κ : Type} [DecidableEq κ] (l : List β) (f : β → κ)
    (a : β) (ha : a ∈ l) (h : (l.map f).Nodup) :
    l.find? (fun x => f x = f a) = some a := by
  induction l with
  | nil => cases ha
  | cons x t ih =>
    rcases List.mem_cons.mp ha with rfl | hat
    · exact List.find?_cons_of_pos _ (by simp)
    · by_cases hx : f x = f a
      · exfalso
        have : f a ∈ t.map f := List.mem_map_of_mem f hat
        rw [← hx] at this
        exact (List.nodup_cons.mp (by simpa using h)).1 this
      · rw [List.find?_cons_of_neg _ (by simpa using hx)]
        exact ih hat (List.Nodup.of_cons (by simpa using h))

/-- Each entry written by the upsert fold keeps its record's id equal to its
map key. -/
theorem jmSet_entries_pres {κ α : Type} [DecidableEq κ] (P : κ × α → Prop)
    (m : List (κ × α)) (k : κ) (v : α) (hm : ∀ e ∈ m, P e) (hv : P (k, v)) :
    ∀ e ∈ jmSet m k v, P e := by
  unfold jmSet
  split
  · intro e he
    rcases List.mem_map.mp he with ⟨e₀, he₀, rfl⟩
    by_cases h0 : e₀.1 = k
    · simpa [h0] using hv
    · simpa [h0] using hm e₀ he₀
  · intro e he
    rcases List.mem_append.mp he with h1 | h1
    · exact hm e h1
    · rcases List.mem_singleton.mp h1 with rfl
      exact hv

theorem sseUpsertFold_idkey (m : List (IdVal × Rec)) (data : List Rec)
    (h : ∀ e ∈ m, e.2.id = e.1) :
    ∀ e ∈ sseUpsertFold m data, e.2.id = e.1 := by
  induction data generalizing m with
  | nil => exact h
  | cons d rest ih =>
    apply ih
    apply jmSet_entries_pres _ m d.id (recMerge (jmFind? m d.id) d) h
    cases hf : jmFind? m d.id <;> simp [recMerge]

theorem sseUpsertFold_find? (m : List (IdVal × Rec)) (data : List Rec)
    (hd : (data.map Rec.id).Nodup) (k : IdVal) :
    jmFind? (sseUpsertFold m data) k =
      (match data.find? (fun d => d.id = k) with
       | some d => some (recMerge (jmFind? m k) d)
       | none => jmFind? m k) := by
  induction data generalizing m with
  | nil => rfl
  | cons d rest ih =>
    have hdrest : (rest.map Rec.id).Nodup := List.Nodup.of_cons (by simpa using hd)
    have hdnot : d.id ∉ rest.map Rec.id := (List.nodup_cons.mp (by simpa using hd)).1
    by_cases hk : d.id = k
    · subst hk
      rw [List.find?_cons_of_pos _ (by simp)]
      show jmFind? (sseUpsertFold (jmSet m d.id (recMerge (jmFind? m d.id) d)) rest) d.id = _
      rw [ih _ hdrest]
      have hnone : rest.find? (fun d' => d'.id = d.id) = none := by
        rw [List.find?_eq_none]
        intro d' hd'
        simp only [decide_eq_true_eq]
        intro heq
        exact hdnot (heq ▸ List.mem_map_of_mem Rec.id hd')
      rw [hnone]
      exact jmSet_find?_self m d.id _
    · rw [List.find?_cons_of_neg _ (by simpa using hk)]
      show jmFind? (sseUpsertFold (jmSet m d.id (recMerge (jmFind? m d.id) d)) rest) k = _
      rw [ih _ hdrest]
      have hne : jmFind? (jmSet m d.id (recMerge (jmFind? m d.id) d)) k = jmFind? m k :=
        jmSet_find?_ne m d.id k _ (fun hh => hk hh.symm)
      rw [hne]

theorem sseUpsertFold_keys (m : List (IdVal × Rec)) (data : List Rec)
    (hd : (data.map Rec.id).Nodup) :
    (sseUpsertFold m data).map Prod.fst =
      m.map Prod.fst ++
        (data.filter (fun d => ¬ d.id ∈ m.map Prod.fst)).map Rec.id := by
  induction data generalizing m with
  | nil => simp [sseUpsertFold]
  | cons d rest ih =>
    have hdrest : (rest.map Rec.id).Nodup := List.Nodup.of_cons (by simpa using hd)
    have hdnot : d.id ∉ rest.map Rec.id := (List.nodup_cons.mp (by simpa using hd)).1
    show (sseUpsertFold (jmSet m d.id (recMerge (jmFind? m d.id) d)) rest).map Prod.fst = _
    rw [ih _ hdrest]
    by_cases hmem : d.id ∈ m.map Prod.fst
    · have hhas : jmHas m d.id = true := (jmHas_iff m d.id).mpr hmem
      have hkeys : (jmSet m d.id (recMerge (jmFind? m d.id) d)).map Prod.fst =
          m.map Prod.fst := by rw [jmSet_keys, if_pos hhas]
      rw [hkeys, List.filter_cons_of_neg (by simpa using hmem)]
    · have hhas : jmHas m d.id = false := by
        cases hb : jmHas m d.id
        · rfl
        · exact absurd ((jmHas_iff m d.id).mp hb) hmem
      have hkeys : (jmSet m d.id (recMerge (jmFind? m d.id) d)).map Prod.fst =
          m.map Prod.fst ++ [d.id] := by rw [jmSet_keys, if_neg (by simp [hhas])]
      rw [hkeys, List.filter_cons_of_pos (by simpa using hmem)]
      have hfilter : rest.filter (fun d' => ¬ d'.id ∈ m.map Prod.fst ++ [d.id]) =
          rest.filter (fun d' => ¬ d'.id ∈ m.map Prod.fst) := by
        apply List.filter_congr
        intro d' hd'
        have : d'.id ≠ d.id := by
          intro heq
          exact hdnot (heq ▸ List.mem_map_of_mem Rec.id hd')
        simp [List.mem_append, this]
      rw [hfilter]
      simp

/-- Lookup of a record by id in the upsert result list agrees with map lookup
on the fold. -/
theorem sseUpsert_find?_eq (items data : List Rec) (k : IdVal)
    (hitems : (items.map Rec.id).Nodup) :
    (sseUpsert items data).find? (fun r => r.id = k) =
      jmFind? (sseUpsertFold (jmOfList (items.map (fun i => (i.id, i)))) data) k := by
  have hpairs : ((items.map (fun i => (i.id, i))).map Prod.fst).Nodup := by
    simpa [List.map_map, Function.comp] using hitems
  have hof : jmOfList (items.map (fun i => (i.id, i))) = items.map (fun i => (i.id, i)) :=
    jmOfList_of_nodup _ hpairs
  have hidkey : ∀ e ∈ sseUpsertFold (jmOfList (items.map (fun i => (i.id, i)))) data,
      e.2.id = e.1 := by
    apply sseUpsertFold_idkey
    rw [hof]
    intro e he
    rcases List.mem_map.mp he with ⟨i, _, rfl⟩
    rfl
  unfold sseUpsert
  rw [List.find?_map]
  rw [find?_congr_mem _ _ (fun e => decide (e.1 = k))
    (fun e he => by
      simp only [Function.comp_apply]
      rw [hidkey e he])]
  rfl

/-- C5 counterexample: sse upsert merges the incoming item over the existing
entry instead of overwriting it.  With current entry `{id:"2", v:2, w:7}` and
incoming `{id:"2", v:22}`, the stored record keeps `w:7`, so it is not the
incoming item as the claim states. -/
theorem sse_upsert_counterexample :
    sseUpsert [⟨.str "2", [("v", 2), ("w", 7)]⟩] [⟨.str "2", [("v", 22)]⟩] =
      [⟨.str "2", [("v", 22), ("w", 7)]⟩] ∧
    sseUpsert [⟨.str "2", [("v", 2), ("w", 7)]⟩] [⟨.str "2", [("v", 22)]⟩] ≠
      [⟨.str "2", [("v", 22)]⟩] := by
  constructor
  · rfl
  · decide

/-- C5 amended: in upsert mode each incoming item is merged over the existing
entry with its id — `{ ...existing, ...incoming }`, so existing fields absent
from the incoming item are retained — at the existing entry's position in the
order, and each incoming item with a new id is appended (for a new id the
merge over `undefined` is the incoming item itself); items with ids untouched
by the payload are unchanged.  The spec's concrete scenario (all fields
re-sent) yields exactly the stated result. -/
theorem sse_upsert_merge_spec (items data : List Rec)
    (hitems : (items.map Rec.id).Nodup) (hdata : (data.map Rec.id).Nodup) :
    ((sseUpsert items data).map Rec.id =
      items.map Rec.id ++
        (data.filter (fun d => ¬ d.id ∈ items.map Rec.id)).map Rec.id) ∧
    (∀ d ∈ data, ∀ old ∈ items, old.id = d.id →
      (sseUpsert items data).find? (fun r => r.id = d.id) =
        some (recMerge (some old) d)) ∧
    (∀ d ∈ data, (∀ old ∈ items, old.id ≠ d.id) →
      (sseUpsert items data).find? (fun r => r.id = d.id) = some d) ∧
    (∀ old ∈ items, (∀ d ∈ data, d.id ≠ old.id) →
      (sseUpsert items data).find? (fun r => r.id = old.id) = some old) ∧
    sseUpsert [⟨.str "1", [("v", 1)]⟩, ⟨.str "2", [("v", 2)]⟩]
        [⟨.str "2", [("v", 22)]⟩, ⟨.str "3", [("v", 3)]⟩] =
      [⟨.str "1", [("v", 1)]⟩, ⟨.str "2", [("v", 22)]⟩, ⟨.str "3", [("v", 3)]⟩] := by
  have hpairs : ((items.map (fun i => (i.id, i))).map Prod.fst).Nodup := by
    simpa [List.map_map, Function.comp] using hitems
  have hof : jmOfList (items.map (fun i => (i.id, i))) =
      items.map (fun i => (i.id, i)) := jmOfList_of_nodup _ hpairs
  have hkeysM : (jmOfList (items.map (fun i => (i.id, i)))).map Prod.fst =
      items.map Rec.id := by
    rw [hof, List.map_map]
    rfl
  have hfindM : ∀ old ∈ items,
      jmFind? (jmOfList (items.map (fun i => (i.id, i)))) old.id = some old := by
    intro old hold
    rw [hof]
    exact jmFind?_map_pairs items Rec.id (fun i => i) old hold hitems
  have hfindM_none : ∀ k : IdVal, (∀ old ∈ items, old.id ≠ k) →
      jmFind? (jmOfList (items.map (fun i => (i.id, i)))) k = none := by
    intro k hk
    apply jmFind?_eq_none
    rw [hkeysM]
    intro hmem
    rcases List.mem_map.mp hmem with ⟨old, hold, heq⟩
    exact hk old hold heq
  refine ⟨?_, ?_, ?_, ?_, rfl⟩
  · unfold sseUpsert
    rw [List.map_map]
    rw [List.map_congr_left (fun e he => by
      show (Rec.id ∘ Prod.snd) e = Prod.fst e
      exact sseUpsertFold_idkey _ data
        (by
          rw [hof]
          intro e' he'
          rcases List.mem_map.mp he' with ⟨i, _, rfl⟩
          rfl) e he)]
    rw [sseUpsertFold_keys _ data hdata, hkeysM]
  · intro d hd old hold heq
    rw [sseUpsert_find?_eq items data d.id hitems,
      sseUpsertFold_find? _ data hdata d.id,
      find?_key_self data Rec.id d hd hdata]
    rw [← heq, hfindM old hold]
  · intro d hd hnew
    rw [sseUpsert_find?_eq items data d.id hitems,
      sseUpsertFold_find? _ data hdata d.id,
      find?_key_self data Rec.id d hd hdata]
    rw [hfindM_none d.id (fun old hold => hnew old hold)]
    rfl
  · intro old hold huntouched
    rw [sseUpsert_find?_eq items data old.id hitems,
      sseUpsertFold_find? _ data hdata old.id]
    have hnone : data.find? (fun d => d.id = old.id) = none := by
      rw [List.find?_eq_none]
      intro d hd
      simpa using huntouched d hd
    rw [hnone]
    exact hfindM old hold

theorem sse_upsert_merge_spec_witness :
    (sseUpsert [⟨.str "2", [("v", 2), ("w", 7)]⟩] [⟨.str "2", [("v", 22)]⟩]).find?
        (fun r => r.id = IdVal.str "2") =
      some (recMerge (some ⟨.str "2", [("v", 2), ("w", 7)]⟩)
        ⟨.str "2", [("v", 22)]⟩) :=
  (sse_upsert_merge_spec [⟨.str "2", [("v", 2), ("w", 7)]⟩]
    [⟨.str "2", [("v", 22)]⟩] (by decide) (by decide)).2.1
    ⟨.str "2", [("v", 22)]⟩ (by decide)
    ⟨.str "2", [("v", 2), ("w", 7)]⟩ (by decide) rfl

/-! ## C2: failed optimistic mutations roll back exactly -/

/-- Writing back the captured previous value undoes an in-place overwrite. -/
theorem jmSet_restore {κ α : Type} [DecidableEq κ] (m : List (κ × α)) (k : κ)
    (x v : α) (hnodup : (m.map Prod.fst).Nodup) (hfind : jmFind? m k = some v) :
    jmSet (jmSet m k x) k v = m := by
  have hhas : jmHas m k = true := by unfold jmHas; rw [hfind]; rfl
  have hhas2 : jmHas (m.map (fun e => if e.1 = k then (k, x) else e)) k = true := by
    unfold jmHas
    rw [jmUpd_find?_self, hfind]
    rfl
  unfold jmSet
  rw [if_pos hhas, if_pos hhas2, List.map_map]
  have hentry : ∀ e ∈ m,
      ((fun e => if e.1 = k then (k, v) else e) ∘
        (fun e => if e.1 = k then (k, x) else e)) e = e := by
    intro e he
    by_cases hek : e.1 = k
    · have hfe : m.find? (fun y => y.1 = e.1) = some e :=
        find?_key_self m Prod.fst e he hnodup
    -- the unique entry under key `k` is `e`, and `jmFind?` returns its value
      have hv : v = e.2 := by
        have heq2 : jmFind? m k = some e.2 := by
          unfold jmFind?
          rw [← hek, hfe]
          rfl
        rw [heq2] at hfind
        exact (Option.some_injective _ hfind).symm
      simp only [Function.comp_apply, if_pos hek, if_true]
      rw [hv, ← hek]
    · simp [Function.comp_apply, hek]
  have hmapid : m.map ((fun e => if e.1 = k then (k, v) else e) ∘
      (fun e => if e.1 = k then (k, x) else e)) = m.map id :=
    List.map_congr_left (fun e he => by rw [hentry e he]; rfl)
  rw [hmapid, List.map_id]

theorem insertIdx_eraseIdx_self {α : Type} (l : List α) (i : Nat) (x : α)
    (h : l[i]? = some x) : (l.eraseIdx i).insertIdx i x = l := by
  induction l generalizing i with
  | nil => simp at h
  | cons a t ih =>
    cases i with
    | zero =>
      simp only [List.getElem?_cons_zero, Option.some.injEq] at h
      subst h
      rfl
    | succ i =>
      simp only [List.getElem?_cons_succ] at h
      rw [List.eraseIdx_cons_succ, List.insertIdx_succ_cons, ih i h]

/-- C2: when the adapter call of an optimistic mutation rejects, the rollback
restores the observable state captured just before the optimistic apply, and
the caller's promise rejects with the adapter's error.  Collection `patch`
restores the exact pre-state; collection `delete` restores the id list exactly
(the record reinserted at its captured list index), every map lookup, and the
ordered record sequence; single-value `patch`, `update` and `delete` restore
the exact previous data. -/
theorem rollback_restores :
    (∀ (s : SetState) (data : Rec) (e : String) (prev : Rec),
      (s.items.map Prod.fst).Nodup →
      jmFind? s.items data.id.key = some prev →
      (setStorePatch s data (.error e)).state = s ∧
      (setStorePatch s data (.error e)).result = .error e) ∧
    (∀ (s : SetState) (pid : IdVal) (e : String),
      SetInv s →
      (setStoreDelete s pid (.error e)).state.ids = s.ids ∧
      (∀ k, jmFind? (setStoreDelete s pid (.error e)).state.items k =
        jmFind? s.items k) ∧
      toArray (setStoreDelete s pid (.error e)).state = toArray s ∧
      (setStoreDelete s pid (.error e)).result = .error e) ∧
    (∀ (d : Rec) (p : Rec) (e : String),
      (storePatch (some d) p (.error e)).data = some d ∧
      (storePatch (some d) p (.error e)).result = .error e) ∧
    (∀ (d : Option Rec) (n : Rec) (e : String),
      (storeUpdate d n (.error e)).data = d ∧
      (storeUpdate d n (.error e)).result = .error e) ∧
    (∀ (d : Option Rec) (e : String),
      (storeDelete d (.error e)).data = d ∧
      (storeDelete d (.error e)).result = .error e) := by
  refine ⟨?_, ?_, fun d p e => ⟨rfl, rfl⟩, fun d n e => ⟨rfl, rfl⟩,
    fun d e => ⟨rfl, rfl⟩⟩
  · rintro ⟨items, ids⟩ data e prev hnd hfind
    unfold setStorePatch
    dsimp only
    rw [hfind]
    dsimp only
    refine ⟨?_, rfl⟩
    show (⟨jmSet (jmSet items data.id.key _) data.id.key prev, ids⟩ : SetState) = _
    rw [jmSet_restore items data.id.key _ prev hnd hfind]
  · rintro ⟨items, ids⟩ pid e hInv
    obtain ⟨hnodupIds, hperm, _⟩ := hInv
    dsimp only at hnodupIds hperm
    cases hfind : jmFind? items pid.key with
    | none =>
      have hkeys : pid.key ∉ items.map Prod.fst := by
        intro hm
        have := (jmHas_iff items pid.key).mpr hm
        unfold jmHas at this
        rw [hfind] at this
        cases this
      have hnotids : pid.key ∉ ids := fun hm => hkeys (hperm.mem_iff.mpr hm)
      have hidx : ids.findIdx? (fun y => y = pid.key) = none := by
        rw [List.findIdx?_eq_none_iff]
        intro y hy
        rw [decide_eq_false_iff_not]
        intro hEq
        exact hnotids (hEq ▸ hy)
      have hios : jsIndexOf ids pid.key = -1 := by
        unfold jsIndexOf
        rw [hidx]
      have herase : jmErase items pid.key = items := jmErase_of_not_mem items _ hkeys
      unfold setStoreDelete
      dsimp only
      rw [hfind, hios, herase]
      rw [if_neg (by norm_num : ¬ (-1 : ℤ) ≥ 0)]
      exact ⟨rfl, fun k => rfl, rfl, rfl⟩
    | some p =>
      have hkeys : pid.key ∈ items.map Prod.fst := by
        unfold jmFind? at hfind
        rcases Option.map_eq_some'.mp hfind with ⟨e₀, he₀, _⟩
        have hmem := List.mem_of_find?_eq_some he₀
        have hpred := List.find?_some he₀
        simp only [decide_eq_true_eq] at hpred
        exact hpred ▸ List.mem_map_of_mem Prod.fst hmem
      have hmemids : pid.key ∈ ids := hperm.mem_iff.mp hkeys
      have hsome : (ids.findIdx? (fun y => y = pid.key)).isSome = true := by
        rw [List.findIdx?_isSome, List.any_eq_true]
        exact ⟨pid.key, hmemids, by simp⟩
      rcases Option.isSome_iff_exists.mp hsome with ⟨i, hi⟩
      rcases List.findIdx?_eq_some_iff_getElem.mp hi with ⟨hilt, hpi, _⟩
      have hgeti : ids[i] = pid.key := by simpa using hpi
      have hios : jsIndexOf ids pid.key = (i : ℤ) := by
        unfold jsIndexOf
        rw [hi]
      have hlen1 : (ids.eraseIdx i).length = ids.length - 1 :=
        List.length_eraseIdx_of_lt hilt
      have hsplice : jsSpliceInsert (ids.eraseIdx i) (i : ℤ) pid.key = ids := by
        unfold jsSpliceInsert
        rw [if_neg (by omega : ¬ (i : ℤ) < 0)]
        have hmin : min (i : ℤ) ((ids.eraseIdx i).length : ℤ) = (i : ℤ) := by
          rw [hlen1]
          omega
        rw [hmin]
        simp only [Int.toNat_natCast]
        exact insertIdx_eraseIdx_self ids i pid.key
          (by rw [List.getElem?_eq_getElem hilt, hgeti])
      unfold setStoreDelete
      dsimp only
      rw [hfind, hios]
      rw [if_pos (by omega : (i : ℤ) ≥ 0)]
      dsimp only
      simp only [Int.toNat_natCast]
      rw [hsplice]
      refine ⟨rfl, ?_, ?_, trivial⟩
      · intro k
        by_cases hk : k = pid.key
        · subst hk
          rw [jmSet_find?_self, hfind]
        · rw [jmSet_find?_ne _ _ _ _ hk, jmErase_find?_ne _ _ _ hk]
      · unfold toArray
        dsimp only
        apply List.map_congr_left
        intro id _
        by_cases hk : id = pid.key
        · subst hk
          rw [jmSet_find?_self, hfind]
        · rw [jmSet_find?_ne _ _ _ _ hk, jmErase_find?_ne _ _ _ hk]

theorem rollback_restores_witness :
    (setStorePatch (initState [⟨.str "u1", [("v", 1)]⟩]) ⟨.str "u1", [("v", 2)]⟩
        (.error "HTTP 500")).state = initState [⟨.str "u1", [("v", 1)]⟩] ∧
    (setStorePatch (initState [⟨.str "u1", [("v", 1)]⟩]) ⟨.str "u1", [("v", 2)]⟩
        (.error "HTTP 500")).result = .error "HTTP 500" :=
  rollback_restores.1 (initState [⟨.str "u1", [("v", 1)]⟩])
    ⟨.str "u1", [("v", 2)]⟩ "HTTP 500" ⟨.str "u1", [("v", 1)]⟩
    (by decide) (by decide)

/-! ## C7: collection store consistency invariant -/

theorem normalizeRec_id (r : Rec) : (normalizeRec r).id = .str r.id.key := by
  cases r with
  | mk id fields => cases id <;> rfl

/-- `setItems` on a list with pairwise-distinct string-form ids establishes
the invariant. -/
theorem setInv_setItems (arr : List Rec)
    (h : (arr.map (fun i => i.id.key)).Nodup) : SetInv (setItems arr) := by
  have hpairs : ((arr.map (fun i => (i.id.key, normalizeRec i))).map Prod.fst).Nodup := by
    simpa [List.map_map, Function.comp] using h
  have hof : jmOfList (arr.map (fun i => (i.id.key, normalizeRec i))) =
      arr.map (fun i => (i.id.key, normalizeRec i)) := jmOfList_of_nodup _ hpairs
  refine ⟨h, ?_, ?_⟩
  · unfold setItems
    dsimp only
    rw [hof, List.map_map]
    exact List.Perm.refl _
  · intro id hid
    unfold setItems at hid ⊢
    dsimp only at hid ⊢
    rcases List.mem_map.mp hid with ⟨a, ha, rfl⟩
    rw [hof]
    have := jmFind?_map_pairs arr (fun i => i.id.key) normalizeRec a ha h
    rw [this]
    rw [Option.map_some', normalizeRec_id]

/-- Overwriting the record stored under a present id, with a record carrying
that id, preserves the invariant. -/
theorem setInv_set_existing (items : List (String × Rec)) (ids : List String)
    (inv : SetInv ⟨items, ids⟩) (k : String) (r : Rec)
    (hmem : k ∈ ids) (hid : r.id = .str k) : SetInv ⟨jmSet items k r, ids⟩ := by
  obtain ⟨hnodup, hperm, hfindall⟩ := inv
  have hkeys : k ∈ items.map Prod.fst := hperm.mem_iff.mpr hmem
  have hhas : jmHas items k = true := (jmHas_iff items k).mpr hkeys
  refine ⟨hnodup, ?_, ?_⟩
  · rw [jmSet_keys, if_pos hhas]
    exact hperm
  · intro id hidmem
    by_cases hk : id = k
    · subst hk
      rw [jmSet_find?_self, Option.map_some', hid]
    · rw [jmSet_find?_ne _ _ _ _ hk]
      exact hfindall id hidmem

/-- Appending a record under a fresh id, carrying that id, preserves the
invariant. -/
theorem setInv_append_new (items : List (String × Rec)) (ids : List String)
    (inv : SetInv ⟨items, ids⟩) (k : String) (r : Rec)
    (hnot : k ∉ ids) (hid : r.id = .str k) :
    SetInv ⟨jmSet items k r, ids ++ [k]⟩ := by
  obtain ⟨hnodup, hperm, hfindall⟩ := inv
  have hkeys : k ∉ items.map Prod.fst := fun hm => hnot (hperm.mem_iff.mp hm)
  have hhas : jmHas items k = false := by
    cases hb : jmHas items k
    · rfl
    · exact absurd ((jmHas_iff items k).mp hb) hkeys
  refine ⟨?_, ?_, ?_⟩
  · rw [List.nodup_append]
    exact ⟨hnodup, List.nodup_singleton k,
      fun a ha hb => hnot ((List.mem_singleton.mp hb) ▸ ha)⟩
  · rw [jmSet_keys, if_neg (by simp [hhas])]
    exact hperm.append_right [k]
  · intro id hidmem
    rcases List.mem_append.mp hidmem with hin | hin
    · have hk : id ≠ k := fun hEq => hnot (hEq ▸ hin)
      rw [jmSet_find?_ne _ _ _ _ hk]
      exact hfindall id hin
    · rcases List.mem_singleton.mp hin with rfl
      rw [jmSet_find?_self, Option.map_some', hid]

theorem eraseIdx_findIdx_eq_erase (l : List String) (k : String) (i : Nat)
    (hi : l.findIdx? (fun y => y = k) = some i) : l.eraseIdx i = l.erase k := by
  induction l generalizing i with
  | nil => simp at hi
  | cons a t ih =>
    rw [List.findIdx?_cons] at hi
    by_cases hak : a = k
    · rw [if_pos (by simpa using hak : (decide (a = k)) = true)] at hi
      obtain rfl : (0 : Nat) = i := Option.some_injective _ hi
      rw [List.eraseIdx_cons_zero, hak, List.erase_cons_head]
    · rw [if_neg (by simpa using hak), List.findIdx?_succ] at hi
      rcases Option.map_eq_some'.mp hi with ⟨j, hj, rfl⟩
      rw [List.eraseIdx_cons_succ, List.erase_cons_tail (by simpa using hak), ih j hj]

/-- Removing an id from both structures preserves the invariant. -/
theorem setInv_erase (items : List (String × Rec)) (ids : List String)
    (inv : SetInv ⟨items, ids⟩) (k : String) :
    SetInv ⟨jmErase items k, ids.erase k⟩ := by
  obtain ⟨hnodup, hperm, hfindall⟩ := inv
  refine ⟨hnodup.erase k, ?_, ?_⟩
  · rw [jmErase_keys]
    have hkeysnodup : (items.map Prod.fst).Nodup := hperm.nodup_iff.mpr hnodup
    have : (items.map Prod.fst).filter (fun x => ¬ x = k) =
        (items.map Prod.fst).erase k := by
      rw [hkeysnodup.erase_eq_filter k]
      apply List.filter_congr
      intro a _
      by_cases h : a = k <;> simp [h]
    rw [this]
    exact hperm.erase k
  · intro id hidmem
    have hmem := (hnodup.mem_erase_iff).mp hidmem
    rw [jmErase_find?_ne _ _ _ hmem.1]
    exact hfindall id hmem.2

/-- C7 counterexample: the invariant as claimed fails on four concrete
operations the code does not guard.  (1) Construction from persisted data with
a duplicated id leaves `ids` with two entries and `items` with one, so
`ids.length ≠ items.size`.  (2) `create` pushes the new id unconditionally,
so an adapter returning an existing id duplicates it.  (3) `upsert` stores
the record verbatim (no id normalization), so a numeric id survives in the
stored record while its map key is the string form.  (4) `patch` stores an
adapter result whose string id differs from the patched id under the patched
key. -/
theorem collection_invariant_counterexample :
    ((initState [⟨.str "a", []⟩, ⟨.str "a", []⟩]).ids.length = 2 ∧
     (initState [⟨.str "a", []⟩, ⟨.str "a", []⟩]).items.length = 1) ∧
    ((setStoreCreate (initState [⟨.str "a", []⟩])
        (.ok ⟨.str "a", []⟩)).state.ids.length = 2 ∧
     (setStoreCreate (initState [⟨.str "a", []⟩])
        (.ok ⟨.str "a", []⟩)).state.items.length = 1) ∧
    ((jmFind? (setStoreUpsert (initState []) ⟨.num 5, []⟩).state.items "5").map
        Rec.id = some (.num 5) ∧ IdVal.num 5 ≠ IdVal.str "5") ∧
    ((jmFind? (setStorePatch (initState [⟨.str "a", []⟩]) ⟨.str "a", []⟩
        (.ok (some ⟨.str "zzz", []⟩))).state.items "a").map Rec.id =
      some (.str "zzz") ∧ IdVal.str "zzz" ≠ IdVal.str "a") := by
  decide

/-- C7 amended: the consistency invariant — `ids` duplicate-free and in
bijection with the `items` keys, every listed id mapping to a record whose
`id` field is that id in string form (hence `ids.length = items.size`) — is
established at construction and preserved by every operation, both on the
success and on the rollback path, provided the inputs the code does not
guard are well-formed: persisted, cached and fetched record lists have
pairwise-distinct string-form ids, `create` results carry an id not already
present, `patch` results carry the patched id when their id is a string, and
`upsert` inputs carry a string id (as their TypeScript type requires). -/
theorem collection_invariant :
    (∀ persisted : List Rec, (persisted.map (fun i => i.id.key)).Nodup →
      SetInv (initState persisted)) ∧
    (∀ (s : SetState) (force hasTtl : Bool) (cached : Option (List Rec × Bool))
        (adapter : AdapterResult (List Rec)),
      SetInv s →
      (∀ l st, cached = some (l, st) → (l.map (fun i => i.id.key)).Nodup) →
      (∀ l, adapter = .ok l → (l.map (fun i => i.id.key)).Nodup) →
      SetInv (setStoreGet s force hasTtl cached adapter).state) ∧
    (∀ (s : SetState) (force hasTtl : Bool) (cached : Option (Rec × Bool))
        (adapter : AdapterResult Rec),
      SetInv s → SetInv (setStoreGetOne s force hasTtl cached adapter).state) ∧
    (∀ (s : SetState) (adapter : AdapterResult Rec),
      SetInv s →
      (∀ r, adapter = .ok r → r.id.key ∉ s.ids) →
      SetInv (setStoreCreate s adapter).state) ∧
    (∀ (s : SetState) (data : Rec) (adapter : AdapterResult (Option Rec)),
      SetInv s →
      (∀ r str', adapter = .ok (some r) → r.id = .str str' → str' = data.id.key) →
      SetInv (setStorePatch s data adapter).state) ∧
    (∀ (s : SetState) (pid : IdVal) (adapter : AdapterResult Unit),
      SetInv s → SetInv (setStoreDelete s pid adapter).state) ∧
    (∀ (s : SetState) (item : Rec) (str' : String),
      SetInv s → item.id = .str str' → SetInv (setStoreUpsert s item).state) ∧
    (∀ s : SetState, SetInv (setStoreClear s).state) ∧
    (∀ s : SetState, SetInv s →
      s.ids.length = s.items.length ∧
      ∀ id ∈ s.ids, (jmFind? s.items id).map Rec.id = some (.str id)) := by
  have hclear : SetInv ⟨[], []⟩ :=
    ⟨List.nodup_nil, List.Perm.refl _, fun id h => absurd h (List.not_mem_nil id)⟩
  refine ⟨fun persisted h => setInv_setItems persisted h, ?_, ?_, ?_, ?_, ?_, ?_,
    fun s => hclear, ?_⟩
  · -- get
    rintro ⟨items, ids⟩ force hasTtl cached adapter inv hcache hadapter
    unfold setStoreGet
    cases hcond : (force || !hasTtl)
    · simp only [hcond, Bool.false_eq_true, if_false]
      cases hcached : cached with
      | none =>
        cases adapter with
        | error e => exact inv
        | ok l => exact setInv_setItems l (hadapter l rfl)
      | some pair =>
        obtain ⟨l, st⟩ := pair
        exact setInv_setItems l (hcache l st hcached)
    · simp only [hcond, if_true]
      cases adapter with
      | error e => exact inv
      | ok l => exact setInv_setItems l (hadapter l rfl)
  · -- getOne
    rintro ⟨items, ids⟩ force hasTtl cached adapter inv
    unfold setStoreGetOne
    cases hcond : (force || !hasTtl)
    · simp only [hcond, Bool.false_eq_true, if_false]
      cases hcached : cached with
      | some pair => exact inv
      | none =>
        cases adapter with
        | error e => exact inv
        | ok item =>
          simp only [Option.map_none']
          cases hhas : jmHas items item.id.key
          · rw [if_neg (by simp)]
            apply setInv_append_new items ids inv item.id.key (normalizeRec item)
            · intro hmem
              have := (jmHas_iff items item.id.key).mpr (inv.2.1.mem_iff.mpr hmem)
              rw [hhas] at this
              cases this
            · exact normalizeRec_id item
          · rw [if_pos rfl]
            apply setInv_set_existing items ids inv item.id.key (normalizeRec item)
            · exact inv.2.1.mem_iff.mp ((jmHas_iff items item.id.key).mp hhas)
            · exact normalizeRec_id item
    · simp only [hcond, if_true]
      cases adapter with
      | error e => exact inv
      | ok item =>
        dsimp only
        cases hhas : jmHas items item.id.key
        · rw [if_neg (by simp)]
          apply setInv_append_new items ids inv item.id.key (normalizeRec item)
          · intro hmem
            have := (jmHas_iff items item.id.key).mpr (inv.2.1.mem_iff.mpr hmem)
            rw [hhas] at this
            cases this
          · exact normalizeRec_id item
        · rw [if_pos rfl]
          apply setInv_set_existing items ids inv item.id.key (normalizeRec item)
          · exact inv.2.1.mem_iff.mp ((jmHas_iff items item.id.key).mp hhas)
          · exact normalizeRec_id item
  · -- create
    rintro ⟨items, ids⟩ adapter inv hfresh
    cases adapter with
    | error e => exact inv
    | ok item =>
      exact setInv_append_new items ids inv item.id.key (normalizeRec item)
        (hfresh item rfl) (normalizeRec_id item)
  · -- patch
    rintro ⟨items, ids⟩ data adapter inv hpatchid
    unfold setStorePatch
    dsimp only
    cases hfind : jmFind? items data.id.key with
    | none => exact inv
    | some prev =>
      have hmem : data.id.key ∈ ids :=
        inv.2.1.mem_iff.mp (by
          unfold jmFind? at hfind
          rcases Option.map_eq_some'.mp hfind with ⟨e₀, he₀, _⟩
          have hpred := List.find?_some he₀
          simp only [decide_eq_true_eq] at hpred
          exact hpred ▸ List.mem_map_of_mem Prod.fst (List.mem_of_find?_eq_some he₀))
      have hinv1 : SetInv ⟨jmSet items data.id.key
          ⟨.str data.id.key, spreadMerge prev.fields data.fields⟩, ids⟩ :=
        setInv_set_existing items ids inv data.id.key _ hmem rfl
      cases adapter with
      | error e =>
        have hkeysnodup : (items.map Prod.fst).Nodup :=
          inv.2.1.nodup_iff.mpr inv.1
        have hrestore := jmSet_restore items data.id.key
          ⟨.str data.id.key, spreadMerge prev.fields data.fields⟩ prev hkeysnodup hfind
        dsimp only
        rw [hrestore]
        exact inv
      | ok result =>
        cases result with
        | none => exact hinv1
        | some r =>
          dsimp only
          cases hr : r.id with
          | str s' =>
            have hs' : s' = data.id.key := hpatchid r s' rfl hr
            apply setInv_set_existing _ ids hinv1 data.id.key r hmem
            rw [hr, hs']
          | num n =>
            exact setInv_set_existing _ ids hinv1 data.id.key _ hmem rfl
  · -- delete
    rintro ⟨items, ids⟩ pid adapter inv
    obtain ⟨hnodupIds, hperm, hfindall⟩ := inv
    unfold setStoreDelete
    dsimp only
    cases hfind : jmFind? items pid.key with
    | none =>
      have hkeys : pid.key ∉ items.map Prod.fst := by
        intro hm
        have := (jmHas_iff items pid.key).mpr hm
        unfold jmHas at this
        rw [hfind] at this
        cases this
      have hnotids : pid.key ∉ ids := fun hm => hkeys (hperm.mem_iff.mpr hm)
      have hidx : ids.findIdx? (fun y => y = pid.key) = none := by
        rw [List.findIdx?_eq_none_iff]
        intro y hy
        rw [decide_eq_false_iff_not]
        intro hEq
        exact hnotids (hEq ▸ hy)
      have hios : jsIndexOf ids pid.key = -1 := by
        unfold jsIndexOf
        rw [hidx]
      have herase : jmErase items pid.key = items := jmErase_of_not_mem items _ hkeys
      rw [hios, herase]
      rw [if_neg (by norm_num : ¬ (-1 : ℤ) ≥ 0)]
      cases adapter with
      | ok u => exact ⟨hnodupIds, hperm, hfindall⟩
      | error e => exact ⟨hnodupIds, hperm, hfindall⟩
    | some p =>
      have hkeys : pid.key ∈ items.map Prod.fst := by
        unfold jmFind? at hfind
        rcases Option.map_eq_some'.mp hfind with ⟨e₀, he₀, _⟩
        have hpred := List.find?_some he₀
        simp only [decide_eq_true_eq] at hpred
        exact hpred ▸ List.mem_map_of_mem Prod.fst (List.mem_of_find?_eq_some he₀)
      have hmemids : pid.key ∈ ids := hperm.mem_iff.mp hkeys
      have hsome : (ids.findIdx? (fun y => y = pid.key)).isSome = true := by
        rw [List.findIdx?_isSome, List.any_eq_true]
        exact ⟨pid.key, hmemids, by simp⟩
      rcases Option.isSome_iff_exists.mp hsome with ⟨i, hi⟩
      rcases List.findIdx?_eq_some_iff_getElem.mp hi with ⟨hilt, hpi, _⟩
      have hgeti : ids[i] = pid.key := by simpa using hpi
      have hios : jsIndexOf ids pid.key = (i : ℤ) := by
        unfold jsIndexOf
        rw [hi]
      have herai : ids.eraseIdx i = ids.erase pid.key :=
        eraseIdx_findIdx_eq_erase ids pid.key i hi
      have hlen1 : (ids.eraseIdx i).length = ids.length - 1 :=
        List.length_eraseIdx_of_lt hilt
      have hsplice : jsSpliceInsert (ids.eraseIdx i) (i : ℤ) pid.key = ids := by
        unfold jsSpliceInsert
        rw [if_neg (by omega : ¬ (i : ℤ) < 0)]
        have hmin : min (i : ℤ) ((ids.eraseIdx i).length : ℤ) = (i : ℤ) := by
          rw [hlen1]
          omega
        rw [hmin]
        simp only [Int.toNat_natCast]
        exact insertIdx_eraseIdx_self ids i pid.key
          (by rw [List.getElem?_eq_getElem hilt, hgeti])
      have hpid : p.id = .str pid.key := by
        have := hfindall pid.key hmemids
        rw [hfind] at this
        exact Option.some_injective _ (by simpa using this)
      rw [hios]
      rw [if_pos (by omega : (i : ℤ) ≥ 0)]
      dsimp only
      simp only [Int.toNat_natCast]
      cases adapter with
      | ok u =>
        dsimp only
        rw [herai]
        exact setInv_erase items ids ⟨hnodupIds, hperm, hfindall⟩ pid.key
      | error e =>
        dsimp only
        rw [hsplice]
        have hkeyarg : pid.key ∉ (jmErase items pid.key).map Prod.fst := by
          rw [jmErase_keys]
          intro hm
          rcases List.mem_filter.mp hm with ⟨_, hnk⟩
          simp at hnk
        have hhasE : jmHas (jmErase items pid.key) pid.key = false := by
          cases hb : jmHas (jmErase items pid.key) pid.key
          · rfl
          · exact absurd ((jmHas_iff _ _).mp hb) hkeyarg
        refine ⟨hnodupIds, ?_, ?_⟩
        · dsimp only
          rw [jmSet_keys, if_neg (by simp [hhasE]), jmErase_keys]
          have hkeysnodup : (items.map Prod.fst).Nodup := hperm.nodup_iff.mpr hnodupIds
          have hfe : (items.map Prod.fst).filter (fun x => ¬ x = pid.key) =
              (items.map Prod.fst).erase pid.key := by
            rw [hkeysnodup.erase_eq_filter pid.key]
            apply List.filter_congr
            intro a _
            by_cases h : a = pid.key <;> simp [h]
          rw [hfe]
          exact ((List.perm_append_singleton _ _).trans
            (List.perm_cons_erase hkeys).symm).trans hperm
        · dsimp only
          intro id hidmem
          by_cases hk : id = pid.key
          · subst hk
            rw [jmSet_find?_self, Option.map_some', hpid]
          · rw [jmSet_find?_ne _ _ _ _ hk, jmErase_find?_ne _ _ _ hk]
            exact hfindall id hidmem
  · -- upsert
    rintro ⟨items, ids⟩ item str' inv hid
    unfold setStoreUpsert
    dsimp only
    cases hhas : jmHas items item.id.key
    · rw [if_neg (by simp)]
      apply setInv_append_new items ids inv item.id.key item
      · intro hmem
        have := (jmHas_iff items item.id.key).mpr (inv.2.1.mem_iff.mpr hmem)
        rw [hhas] at this
        cases this
      · rw [hid]
        rfl
    · rw [if_pos rfl]
      apply setInv_set_existing items ids inv item.id.key item
      · exact inv.2.1.mem_iff.mp ((jmHas_iff items item.id.key).mp hhas)
      · rw [hid]
        rfl
  · -- the invariant yields the claim's cardinality and id-agreement facts
    rintro ⟨items, ids⟩ ⟨hnodup, hperm, hfindall⟩
    refine ⟨?_, hfindall⟩
    have := hperm.length_eq
    rw [List.length_map] at this
    exact this.symm

theorem collection_invariant_witness :
    SetInv (setStoreGetOne (initState [⟨.str "a", [("v", 1)]⟩]) false true none
      (.ok ⟨.num 7, [("v", 2)]⟩)).state :=
  collection_invariant.2.2.1 (initState [⟨.str "a", [("v", 1)]⟩]) false true
    none (.ok ⟨.num 7, [("v", 2)]⟩) (by decide)

/-! ## C4: numeric-string segment coercion -/

set_option maxRecDepth 8000 in
/-- C4 counterexample: `isNumeric`'s last conjunct `Number(s) == s` uses
loose equality, which coerces the string operand with `Number` as well, so it
only rejects `NaN`.  Hence `"03"` — a digit string with a leading zero, which
the claim says must be recorded verbatim — is recorded as the number `3`. -/
theorem numeric_segment_counterexample :
    specNumericPred "03" = false ∧
    recordSegment "03" = .num 3 ∧
    recordSegment "03" ≠ .str "03" := by
  refine ⟨by decide, by with_unfolding_all decide, by with_unfolding_all decide⟩

theorem digit_not_ws (c : Char) (h : c.isDigit = true) :
    isJsWhitespace c = false := by
  cases hw : isJsWhitespace c
  · rfl
  · exfalso
    have hmem : c ∈ jsWhitespaceChars := by
      unfold isJsWhitespace at hw
      exact of_decide_eq_true hw
    fin_cases hmem <;> exact absurd h (by decide)

theorem dropWhile_of_all_false {α : Type} (p : α → Bool) (l : List α)
    (h : ∀ c ∈ l, p c = false) : l.dropWhile p = l := by
  cases l with
  | nil => rfl
  | cons c t =>
    rw [List.dropWhile_cons_of_neg]
    rw [h c (by simp)]
    simp

theorem takeWhile_of_all_true {α : Type} (p : α → Bool) (l : List α)
    (h : ∀ c ∈ l, p c = true) : l.takeWhile p = l := by
  induction l with
  | nil => rfl
  | cons c t ih =>
    rw [List.takeWhile_cons_of_pos (h c (by simp))]
    rw [ih (fun c hc => h c (by simp [hc]))]

theorem dropWhile_of_all_true {α : Type} (p : α → Bool) (l : List α)
    (h : ∀ c ∈ l, p c = true) : l.dropWhile p = [] := by
  induction l with
  | nil => rfl
  | cons c t ih =>
    rw [List.dropWhile_cons_of_pos (h c (by simp))]
    exact ih (fun c hc => h c (by simp [hc]))

theorem trimJs_of_digits (l : List Char) (h : ∀ c ∈ l, c.isDigit = true) :
    trimJs l = l := by
  unfold trimJs
  rw [dropWhile_of_all_false _ l (fun c hc => digit_not_ws c (h c hc))]
  rw [dropWhile_of_all_false _ l.reverse
    (fun c hc => digit_not_ws c (h c (List.mem_reverse.mp hc)))]
  exact List.reverse_reverse l

/-- A nonempty all-digit segment is recorded as the binary64 rounding of its
decimal value. -/
theorem recordSegment_digits (s : String) (hne : s.toList ≠ [])
    (hall : s.toList.all Char.isDigit = true) :
    recordSegment s = .num (roundF64 (decVal s.toList)) := by
  have hallmem : ∀ c ∈ s.toList, c.isDigit = true := by
    intro c hc
    exact List.all_eq_true.mp hall c hc
  have hnum : jsNumber? s = some ((decVal s.toList : ℚ)) := by
    unfold jsNumber?
    rw [trimJs_of_digits s.toList hallmem]
    dsimp only
    rw [takeWhile_of_all_true _ _ hallmem, dropWhile_of_all_true _ _ hallmem]
    rw [if_neg (by simpa [List.isEmpty_iff] using hne)]
  have hnumeric : isNumeric s = true := by
    unfold isNumeric
    cases hl : s.toList with
    | nil => exact absurd hl hne
    | cons c cs =>
      dsimp only
      have hc : c.isDigit = true := hallmem c (by rw [hl]; simp)
      rw [hc, hnum]
      rfl
  unfold recordSegment jsNumberVal?
  rw [if_pos hnumeric, hnum]
  rfl

theorem ratLog2Fuel_le (f : ℕ) : ∀ (k : ℕ) (a : ℚ), 1 ≤ a → a < 2 ^ k →
    1 ≤ k → ratLog2Fuel f a ≤ (k : ℤ) - 1 := by
  induction f with
  | zero =>
    intro k a h1 hk hk1
    simp only [ratLog2Fuel]
    omega
  | succ f ih =>
    intro k a h1 hk hk1
    simp only [ratLog2Fuel]
    rw [if_neg (by linarith : ¬ a < 1)]
    by_cases h2 : 2 ≤ a
    · rw [if_pos h2]
      have hk2 : 2 ≤ k := by
        by_contra hc
        push_neg at hc
        have hk1' : k = 1 := by omega
        rw [hk1'] at hk
        norm_num at hk
        linarith
      have ha2 : 1 ≤ a / 2 := by linarith
      have hb2 : a / 2 < 2 ^ (k - 1) := by
        rw [div_lt_iff₀ (by norm_num : (0 : ℚ) < 2)]
        have hpow : (2 : ℚ) ^ (k - 1) * 2 = 2 ^ k := by
          rw [← pow_succ]
          congr 1
          omega
        linarith
      have hrec := ih (k - 1) (a / 2) ha2 hb2 (by omega)
      have hcast : ((k - 1 : ℕ) : ℤ) = (k : ℤ) - 1 := by omega
      omega
    · rw [if_neg h2]
      omega

theorem ratLog2Fuel_eq (f : ℕ) : ∀ (k : ℕ) (a : ℚ), (2 : ℚ) ^ k ≤ a →
    a < 2 ^ (k + 1) → k < f → ratLog2Fuel f a = k := by
  induction f with
  | zero =>
    intro k a h1 h2 hk
    exact absurd hk (by omega)
  | succ f ih =>
    intro k a h1 h2 hk
    have ha1 : 1 ≤ a := by
      refine le_trans ?_ h1
      exact one_le_pow₀ (by norm_num)
    simp only [ratLog2Fuel]
    rw [if_neg (not_lt.mpr ha1)]
    cases k with
    | zero =>
      rw [if_neg]
      · rfl
      · rw [not_le]
        rw [pow_one] at h2
        exact h2
    | succ k =>
      have h2a : (2 : ℚ) ≤ a := by
        refine le_trans ?_ h1
        calc (2 : ℚ) = 2 ^ 1 := (pow_one 2).symm
          _ ≤ 2 ^ (k + 1) := by
            apply pow_le_pow_right₀ (by norm_num)
            omega
      rw [if_pos h2a]
      have hlow : (2 : ℚ) ^ k ≤ a / 2 := by
        rw [le_div_iff₀ (by norm_num : (0 : ℚ) < 2)]
        rw [← pow_succ]
        exact h1
      have hhigh : a / 2 < 2 ^ (k + 1) := by
        rw [div_lt_iff₀ (by norm_num : (0 : ℚ) < 2)]
        rw [← pow_succ]
        exact h2
      rw [ih k (a / 2) hlow hhigh (by omega)]
      omega

theorem ratLog2_nine : ratLog2 ((9007199254740993 : ℕ) : ℚ) = 53 := by
  unfold ratLog2
  apply ratLog2Fuel_eq 1200 53
  · push_cast
    norm_num
  · push_cast
    norm_num
  · norm_num

/-- `9007199254740993 = 2^53 + 1` rounds down to the even `2^53` under
round-half-to-even. -/
theorem roundF64_nine :
    roundF64 ((9007199254740993 : ℕ) : ℚ) = 9007199254740992 := by
  unfold roundF64
  rw [if_neg (by push_cast; norm_num : ¬ ((9007199254740993 : ℕ) : ℚ) = 0)]
  dsimp only
  rw [abs_of_nonneg (by positivity : (0 : ℚ) ≤ ((9007199254740993 : ℕ) : ℚ))]
  rw [ratLog2_nine]
  rw [show (max (53 - 52 : ℤ) (-1074 : ℤ)) = 1 from by decide]
  rw [if_neg (not_lt.mpr (by positivity : (0 : ℚ) ≤ ((9007199254740993 : ℕ) : ℚ)))]
  have hz : ((9007199254740993 : ℕ) : ℚ) / (2 : ℚ) ^ (1 : ℤ) =
      (9007199254740993 : ℚ) / 2 := by
    push_cast
    norm_num
  rw [hz]
  have hfl : ⌊(9007199254740993 : ℚ) / 2⌋ = 4503599627370496 := by
    rw [Int.floor_eq_iff]
    constructor
    · norm_num
    · norm_num
  have hrte : roundTiesEven ((9007199254740993 : ℚ) / 2) = 4503599627370496 := by
    unfold roundTiesEven
    rw [hfl]
    dsimp only
    rw [if_neg (by norm_num), if_neg (by norm_num), if_pos (by decide)]
  rw [hrte]
  norm_num

/-- Binary64 rounding is the identity on every natural number below `2^53`
(such a value is exactly representable, and `Number` returns it exactly). -/
theorem roundF64_natLt (v : ℕ) (h : (v : ℚ) < 2 ^ 53) :
    roundF64 (v : ℚ) = v := by
  by_cases h0 : (v : ℚ) = 0
  · unfold roundF64
    rw [if_pos h0]
    exact h0.symm
  · unfold roundF64
    rw [if_neg h0]
    dsimp only
    have hv1 : 1 ≤ (v : ℚ) := by
      have hv0 : v ≠ 0 := fun hh => h0 (by rw [hh]; norm_num)
      exact_mod_cast Nat.one_le_iff_ne_zero.mpr hv0
    have habs : |(v : ℚ)| = (v : ℚ) := abs_of_nonneg (by positivity)
    rw [habs]
    have hlog : ratLog2 (v : ℚ) ≤ 52 := by
      have hle := ratLog2Fuel_le 1200 53 (v : ℚ) hv1 (by exact_mod_cast h)
        (by norm_num)
      unfold ratLog2
      omega
    set scale := max (ratLog2 (v : ℚ) - 52) (-1074 : ℤ) with hscaledef
    have hsle : scale ≤ 0 := by
      rw [hscaledef]
      apply max_le
      · omega
      · norm_num
    obtain ⟨k, hk⟩ : ∃ k : ℕ, scale = -(k : ℤ) := ⟨(-scale).toNat, by omega⟩
    have hpow : (2 : ℚ) ^ scale = (((2 ^ k : ℕ) : ℚ))⁻¹ := by
      rw [hk, zpow_neg, zpow_natCast]
      norm_cast
    have hm : (v : ℚ) / (2 : ℚ) ^ scale = ((v * 2 ^ k : ℕ) : ℚ) := by
      rw [hpow, div_eq_mul_inv, inv_inv]
      push_cast
      ring
    rw [hm]
    rw [if_neg (not_lt.mpr (by positivity : (0 : ℚ) ≤ (v : ℚ)))]
    have hrte : roundTiesEven ((v * 2 ^ k : ℕ) : ℚ) = ((v * 2 ^ k : ℕ) : ℤ) := by
      unfold roundTiesEven
      dsimp only
      rw [Int.floor_natCast]
      rw [show ((v * 2 ^ k : ℕ) : ℚ) - (((v * 2 ^ k : ℕ) : ℤ) : ℚ) = 0 from by
        push_cast; ring]
      rw [if_pos (by norm_num : (0 : ℚ) < 1 / 2)]
    rw [hrte, hpow]
    push_cast
    field_simp

set_option maxRecDepth 8000 in
/-- C4 amended: a string segment is recorded as a number rather than verbatim
if and only if it is nonempty, its first character is a decimal digit, and
`Number(s)` is not `NaN` — the loose `==` in `isNumeric` only rejects `NaN`,
so a leading zero does not exclude a digit string; the recorded number is
`Number(s)`, the literal's exact value rounded to binary64.  In particular:
every nonempty all-digit string is recorded as a number, with exactly its
decimal value whenever that value lies below `2^53` (so `"03"` is recorded as
the number `3` — not the string `"03"` — and `root["3"]` and `root[3]`,
whose property key reaches the proxy as the string `"3"`, record identical
paths), while `"9007199254740993"` is recorded as the rounded
`9007199254740992`; digit-initial strings such as `"1.5"`, `"0x10"`, `"1e3"`,
`"3 "` (trailing space) and `"3"` followed by a NBSP are recorded as the
numbers `1.5`, `16`, `1000`, `3`, `3`; `"3a"` (`NaN`) and every string whose first character is not a
decimal digit are recorded verbatim. -/
theorem proxy_segment_recording (s : String) :
    ((∃ q, recordSegment s = .num q) ↔
      (∃ c cs, s.toList = c :: cs ∧ c.isDigit = true ∧
        (jsNumber? s).isSome = true)) ∧
    (s.toList ≠ [] → s.toList.all Char.isDigit = true →
      recordSegment s = .num (roundF64 (decVal s.toList))) ∧
    (s.toList ≠ [] → s.toList.all Char.isDigit = true →
      (decVal s.toList : ℚ) < 2 ^ 53 →
      recordSegment s = .num (decVal s.toList)) ∧
    ((∀ c, s.toList.head? = some c → c.isDigit = false) →
      recordSegment s = .str s) ∧
    (recordSegment "1.5" = .num (3 / 2) ∧
     recordSegment "0x10" = .num 16 ∧
     recordSegment "1e3" = .num 1000 ∧
     recordSegment "3 " = .num 3 ∧
     recordSegment "3\u00A0" = .num 3 ∧
     recordSegment "3a" = .str "3a" ∧
     recordSegment "9007199254740993" = .num 9007199254740992) := by
  refine ⟨?_, recordSegment_digits s, ?_, ?_, ?_⟩
  · constructor
    · rintro ⟨q, hq⟩
      cases hn : isNumeric s with
      | false =>
        exfalso
        unfold recordSegment at hq
        rw [if_neg (by simp [hn])] at hq
        cases hq
      | true =>
        unfold isNumeric at hn
        cases hl : s.toList with
        | nil => rw [hl] at hn; cases hn
        | cons c cs =>
          rw [hl] at hn
          dsimp only at hn
          rw [Bool.and_eq_true] at hn
          exact ⟨c, cs, rfl, hn.1, hn.2⟩
    · rintro ⟨c, cs, hl, hd, hs⟩
      have hnumeric : isNumeric s = true := by
        unfold isNumeric
        rw [hl]
        dsimp only
        rw [hd, hs]
        rfl
      exact ⟨_, by unfold recordSegment; rw [if_pos hnumeric]⟩
  · intro hne hall hlt
    rw [recordSegment_digits s hne hall, roundF64_natLt _ hlt]
  · intro hhead
    have hnumeric : isNumeric s = false := by
      unfold isNumeric
      cases hl : s.toList with
      | nil => rfl
      | cons c cs =>
        dsimp only
        rw [hhead c (by rw [hl]; rfl)]
        rfl
    unfold recordSegment
    rw [if_neg (by simp [hnumeric])]
  · refine ⟨by with_unfolding_all decide, by with_unfolding_all decide,
      by with_unfolding_all decide, by with_unfolding_all decide,
      by with_unfolding_all decide, by with_unfolding_all decide, ?_⟩
    rw [recordSegment_digits "9007199254740993" (by decide) (by decide)]
    rw [show decVal "9007199254740993".toList = 9007199254740993 from by decide]
    rw [roundF64_nine]

theorem proxy_segment_recording_witness :
    recordSegment "42" = .num (decVal "42".toList) ∧
    recordSegment "a3" = .str "a3" :=
  ⟨(proxy_segment_recording "42").2.2.1 (by decide) (by decide)
     (by with_unfolding_all decide),
   (proxy_segment_recording "a3").2.2.2.1 (by
     intro c hc
     cases Option.some_injective _ hc
     decide)⟩

end KState
